import Mathlib

/-!
Verification of the Necklace B-tree (NB-tree) extent manager of Akumuli's
storage engine, as described by the repository's specification and exercised
by the unit-test driver in the repository.

The repository ships the test driver and the `nbtree.h` header; the engine
behind `NBTreeExtentsList` (append / search / close / reopen / repair /
check_extent) is not part of the source tree, so the definitions below are a
shallow embedding modelled from the specification's description of those
operations (each such definition carries a `Modelled from the spec:` note).

Conventions of the embedding:
* the block store is a list of pages; a logical address is the index at which
  a page was committed (addresses are assigned in commit order);
* timestamps are unbounded naturals (the source uses u64; no claim exercises
  wrap-around), values are integers (the source stores IEEE doubles, but all
  workloads use small integers, which doubles represent exactly);
* `EMPTY_ADDR` is represented by `Option.none`.
-/

namespace NBT

/-- Timestamps (u64 in the source; modelled as `Nat`). -/
abbrev Ts := Nat

/-- Values (doubles in the source; all claims use exact small integers). -/
abbrev Val := Int

/-- Minimum of `x` and all elements of `l`. -/
def lmin {α : Type} [LinearOrder α] (x : α) (l : List α) : α := l.foldl min x

/-- Maximum of `x` and all elements of `l`. -/
def lmax {α : Type} [LinearOrder α] (x : α) (l : List α) : α := l.foldl max x

/-- Minimum of a list with a default for the empty list. -/
def minD {α : Type} [LinearOrder α] (dflt : α) : List α → α
  | [] => dflt
  | x :: xs => lmin x xs

/-- Maximum of a list with a default for the empty list. -/
def maxD {α : Type} [LinearOrder α] (dflt : α) : List α → α
  | [] => dflt
  | x :: xs => lmax x xs

/-- Timestamps of a payload. -/
def tsOf (d : List (Ts × Val)) : List Ts := d.map Prod.fst

/-- Values of a payload. -/
def vsOf (d : List (Ts × Val)) : List Val := d.map Prod.snd

/-- Modelled from the spec: the child-reference record stored in superblocks
(spec section 6, 56-byte record): address of the child plus the aggregates
count, min/max timestamp, min/max value and sum of values. -/
structure Ref where
  addr : Nat
  cnt : Nat
  tmin : Ts
  tmax : Ts
  vmin : Val
  vmax : Val
  vsum : Val
deriving DecidableEq, Repr

/-- Modelled from the spec (sections 4.1, 6): header/reference aggregates of a
leaf with payload `d` committed at address `a`. -/
def refOfData (a : Nat) (d : List (Ts × Val)) : Ref :=
  { addr := a, cnt := d.length,
    tmin := minD 0 (tsOf d), tmax := maxD 0 (tsOf d),
    vmin := minD 0 (vsOf d), vmax := maxD 0 (vsOf d),
    vsum := (vsOf d).sum }

/-- Modelled from the spec (section 4.2 aggregation rule): aggregates of a
superblock committed at address `a` with child references `cs`. -/
def refOfChildren (a : Nat) (cs : List Ref) : Ref :=
  { addr := a, cnt := (cs.map Ref.cnt).sum,
    tmin := minD 0 (cs.map Ref.tmin), tmax := maxD 0 (cs.map Ref.tmax),
    vmin := minD 0 (cs.map Ref.vmin), vmax := maxD 0 (cs.map Ref.vmax),
    vsum := (cs.map Ref.vsum).sum }

/-- Modelled from the spec (sections 3, 6): a committed page — either a leaf
holding a run of (timestamp, value) pairs, or a level-`lvl` superblock holding
child references; both carry a back-link to the previous same-level node. -/
inductive Page where
  | leaf (prev : Option Nat) (data : List (Ts × Val))
  | node (lvl : Nat) (prev : Option Nat) (children : List Ref)
deriving DecidableEq, Repr

/-- The back-link of a page. -/
def Page.prevOf : Page → Option Nat
  | .leaf p _ => p
  | .node _ p _ => p

/-- The in-memory level-0 extent: back-link tip and volatile leaf buffer. -/
structure LeafExtent where
  prev : Option Nat
  buf : List (Ts × Val)
deriving DecidableEq, Repr

/-- The in-memory extent at level ≥ 1: back-link tip and open child array. -/
structure NodeExtent where
  prev : Option Nat
  children : List Ref
deriving DecidableEq, Repr

/-- Modelled from the spec (section 4.4): `NBTreeExtentsList` state — the
block store, the leaf extent (absent until the first append, as extents are
created lazily), and the superblock extents for levels 1, 2, …. -/
structure ExtentsList where
  store : List Page
  leafE : Option LeafExtent
  nodes : List NodeExtent
deriving DecidableEq, Repr

/-- A fresh series: empty store, no extents. -/
def emptyList : ExtentsList := ⟨[], none, []⟩

/-- Elements stored under the subtree rooted at address `a` (fuel-bounded
recursion; any fuel above the root address is enough on well-formed stores). -/
def subtreeElems (store : List Page) : Nat → Nat → List (Ts × Val)
  | 0, _ => []
  | fuel+1, a =>
    match store[a]? with
    | some (.leaf _ d) => d
    | some (.node _ _ cs) => cs.flatMap (fun r => subtreeElems store fuel r.addr)
    | none => []

/-- Elements under a list of child references, in stored order. -/
def childElems (store : List Page) (fuel : Nat) (cs : List Ref) : List (Ts × Val) :=
  cs.flatMap (fun r => subtreeElems store fuel r.addr)

/-- All data visible to a scan, oldest first: per the spec (sections 2, 4.6),
the elements under the open node of each extent from the highest level down,
then the volatile leaf buffer. -/
def collect (xl : ExtentsList) : List (Ts × Val) :=
  (xl.nodes.reverse.flatMap fun e => childElems xl.store xl.store.length e.children)
    ++ (match xl.leafE with | none => [] | some le => le.buf)

/-- Commit-bubble: insert the reference of a freshly committed level-`lvl - 1`
node into the extent stack starting at level `lvl`; a full extent is committed
first (obtaining a fresh address) and the incoming reference starts its fresh
open node, the committed extent's own reference bubbling upward. -/
def pushRef (K : Nat) : List Page → Nat → List NodeExtent → Ref →
    List Page × List NodeExtent
  | store, _, [], r => (store, [⟨none, [r]⟩])
  | store, lvl, e :: rest, r =>
    if e.children.length < K then
      (store, ⟨e.prev, e.children ++ [r]⟩ :: rest)
    else
      let a := store.length
      let store1 := store ++ [Page.node lvl e.prev e.children]
      let r1 := refOfChildren a e.children
      let res := pushRef K store1 (lvl+1) rest r1
      (res.1, ⟨some a, [r]⟩ :: res.2)

/-- Modelled from the spec (sections 2, 4.3, 4.4): `append(ts, v)`. The leaf
buffer absorbs the pair while it has room (`cap` pairs per leaf); a full
buffer is committed first and the incoming pair starts the fresh leaf, the
committed leaf's reference bubbling up through `pushRef`. The returned flag
is true iff at least one commit occurred during the call. -/
def append (cap K : Nat) (xl : ExtentsList) (t : Ts) (v : Val) :
    ExtentsList × Bool :=
  match xl.leafE with
  | none => ({ xl with leafE := some ⟨none, [(t, v)]⟩ }, false)
  | some le =>
    if le.buf.length < cap then
      ({ xl with leafE := some ⟨le.prev, le.buf ++ [(t, v)]⟩ }, false)
    else
      let a := xl.store.length
      let store1 := xl.store ++ [Page.leaf le.prev le.buf]
      let r := refOfData a le.buf
      let res := pushRef K store1 1 xl.nodes r
      ({ store := res.1, leafE := some ⟨some a, [(t, v)]⟩, nodes := res.2 }, true)

/-- The state after appending `(i, i)` for `i ∈ [0, n)` into a fresh list. -/
def appendRun (cap K : Nat) : Nat → ExtentsList
  | 0 => emptyList
  | n+1 => (append cap K (appendRun cap K n) n (n : Int)).1

/-- Modelled from the spec (section 4.4): `get_roots()` — the current
back-link tip of every materialised level. -/
def get_roots (xl : ExtentsList) : List (Option Nat) :=
  match xl.leafE with
  | none => []
  | some le => le.prev :: xl.nodes.map NodeExtent.prev

/-- Repair status of a roots vector. -/
inductive RepairStatus where
  | OK
  | REPAIR
deriving DecidableEq, Repr

/-- Modelled from the spec (section 4.5): `repair_status(roots)`. A vector
produced by `close()` carries the closed-tree sentinel: every entry below the
top is `EMPTY_ADDR` and the top entry is the address of the single root whose
subtree covers all levels. Any other non-empty shape was captured mid-stream
and needs repair. -/
def repair_status (roots : List (Option Nat)) : RepairStatus :=
  match roots.getLast? with
  | none => .OK
  | some none => .REPAIR
  | some (some _) =>
    if roots.dropLast.all (fun o => o = none) then .OK else .REPAIR

/-- Iterator read status (`AKU_SUCCESS` / `AKU_ENO_DATA` in the source). -/
inductive St where
  | OK
  | NO_DATA
deriving DecidableEq, Repr

/-- Result of one `read` call on a scan iterator. -/
structure ReadRes where
  status : St
  n : Nat
  out : List (Ts × Val)
  rest : List (Ts × Val)
deriving DecidableEq, Repr

/-- Modelled from the spec (section 4.6): `read(ts, xs, m)` fills up to `m`
positions; status is `OK` exactly when the buffer was filled (more data may
follow), `NO_DATA` when the iterator got exhausted with a partial fill. -/
def read (it : List (Ts × Val)) (m : Nat) : ReadRes :=
  { status := if m ≤ it.length then .OK else .NO_DATA,
    n := min m it.length,
    out := it.take m,
    rest := it.drop m }

/-- Modelled from the spec (sections 4.4, 4.6): `search(b, e)` — forward scan
of `[b, e)` when `b < e`, otherwise backward scan of `(e, b]` (timestamps
descending). The iterator is its remaining stream of pairs; it draws from
open extents as well as committed history. -/
def search (xl : ExtentsList) (b e : Ts) : List (Ts × Val) :=
  if b < e then
    (collect xl).filter (fun p => decide (b ≤ p.1) && decide (p.1 < e))
  else
    ((collect xl).filter (fun p => decide (e < p.1) && decide (p.1 ≤ b))).reverse

/-- Repeated chunked reads of size `c` until the iterator signals
exhaustion, concatenating the outputs (fuel-bounded). -/
def readChunks : Nat → List (Ts × Val) → Nat → List (Ts × Val)
  | 0, _, _ => []
  | fuel+1, it, c =>
    let r := read it c
    match r.status with
    | .NO_DATA => r.out
    | .OK => r.out ++ readChunks fuel r.rest c

/-- Chunked read of a whole iterator (enough fuel for chunk sizes ≥ 1). -/
def chunkedRead (it : List (Ts × Val)) (c : Nat) : List (Ts × Val) :=
  readChunks (it.length + 1) it c

/-- Absorb one reference into a level-`lvl` extent during `close`, committing
the extent first when it is full; returns the new store, the new extent and
the references that must bubble to the level above. -/
def absorb (K : Nat) (store : List Page) (lvl : Nat) (e : NodeExtent) (r : Ref) :
    List Page × NodeExtent × List Ref :=
  if e.children.length < K then (store, ⟨e.prev, e.children ++ [r]⟩, [])
  else
    (store ++ [Page.node lvl e.prev e.children],
     ⟨some store.length, [r]⟩,
     [refOfChildren store.length e.children])

/-- Absorb a list of references in order into a level-`lvl` extent. -/
def absorbAll (K : Nat) : List Page → Nat → NodeExtent → List Ref →
    List Page × NodeExtent × List Ref
  | store, _, e, [] => (store, e, [])
  | store, lvl, e, r :: rs =>
    let s1 := absorb K store lvl e r
    let s2 := absorbAll K s1.1 lvl s1.2.1 rs
    (s2.1, s2.2.1, s1.2.2 ++ s2.2.2)

/-- Close the extent stack bottom-up: each level absorbs the references
bubbling from below, force-commits its final partial node, and passes the
resulting references up; the top commit is the single root. Returns the new
store and the per-level roots entries (all `EMPTY_ADDR` except the top). -/
def closeNodes (K : Nat) : List Page → Nat → List NodeExtent → List Ref →
    List Page × List (Option Nat)
  | store, _, [], [] => (store, [])
  | store, _, [], [r] => (store, [some r.addr])
  | store, lvl, [], rs => (store ++ [Page.node lvl none rs], [some store.length])
  | store, lvl, e :: rest, carry =>
    let s1 := absorbAll K store lvl e carry
    if s1.2.1.children.isEmpty then
      let s2 := closeNodes K s1.1 (lvl+1) rest s1.2.2
      (s2.1, none :: s2.2)
    else
      let a := s1.1.length
      let store2 := s1.1 ++ [Page.node lvl s1.2.1.prev s1.2.1.children]
      let s2 := closeNodes K store2 (lvl+1) rest
        (s1.2.2 ++ [refOfChildren a s1.2.1.children])
      (s2.1, none :: s2.2)

/-- Modelled from the spec (section 4.4): `close()` — force-commit every open
extent bottom-up so that all data ends under a single root; returns the final
store and the roots vector (carrying the closed-tree sentinel shape). -/
def close (K : Nat) (xl : ExtentsList) : List Page × List (Option Nat) :=
  match xl.leafE with
  | none => (xl.store, [])
  | some le =>
    let a := xl.store.length
    let store1 := xl.store ++ [Page.leaf le.prev le.buf]
    let s := closeNodes K store1 1 xl.nodes [refOfData a le.buf]
    (s.1, none :: s.2)

/-- The address at which a back-link walk from a level-(L−1) tip must stop:
the rightmost child of the level-L tip — everything from there down is
already linked into level L (spec section 4.5). -/
def stopAddr (store : List Page) : Option Nat → Option Nat
  | none => none
  | some a =>
    match store[a]? with
    | some (.node _ _ cs) => (cs.map Ref.addr).getLast?
    | _ => none

/-- Walk the back-link chain from `tip`, collecting addresses (newest first)
until the stop address or `EMPTY_ADDR` is reached (fuel-bounded). -/
def chainUntil (store : List Page) : Nat → Option Nat → Option Nat → List Nat
  | _, none, _ => []
  | 0, some _, _ => []
  | fuel+1, some a, stop =>
    if stop = some a then []
    else
      match store[a]? with
      | some pg => a :: chainUntil store fuel pg.prevOf stop
      | none => []

/-- Recompute the reference of a committed page from its stored content. -/
def pageRefAt (store : List Page) (a : Nat) : Ref :=
  match store[a]? with
  | some (.leaf _ d) => refOfData a d
  | some (.node _ _ cs) => refOfChildren a cs
  | none => refOfData a []

/-- Modelled from the spec (section 4.5 recovery): rebuild the open child
array of a level-L extent from the back-link chain of the level-(L−1) tip,
stopping where the level-L tip already links the chain; children in
chronological order. -/
def rebuildChildren (store : List Page) (tipBelow pL : Option Nat) : List Ref :=
  ((chainUntil store store.length tipBelow (stopAddr store pL)).map
    (pageRefAt store)).reverse

/-- Modelled from the spec (sections 4.4, 4.5): constructing an
`NBTreeExtentsList` from a roots vector followed by `force_init()`. A
closed-tree vector installs the single root as the child of a fresh top
extent; a mid-stream vector triggers the recovery procedure, which restores
each level's tip and rebuilds the open child arrays from back-link chains
(the volatile leaf buffer is lost). -/
def reopen (store : List Page) (roots : List (Option Nat)) : ExtentsList :=
  match repair_status roots with
  | .OK =>
    match roots.getLast? with
    | some (some a) =>
      { store := store, leafE := some ⟨none, []⟩,
        nodes := [⟨none, [pageRefAt store a]⟩] }
    | _ => { store := store, leafE := none, nodes := [] }
  | .REPAIR =>
    { store := store,
      leafE := some ⟨roots.getD 0 none, []⟩,
      nodes := (List.range roots.length).map fun i =>
        ⟨roots.getD (i+1) none,
         rebuildChildren store (roots.getD i none) (roots.getD (i+1) none)⟩ }

/-- Modelled from the spec (sections 3, 4.4): the child time-ranges of a
superblock must be non-overlapping and in increasing order — each child's
largest timestamp lies strictly below the next child's smallest. -/
def monoRefs : List Ref → Bool
  | [] => true
  | [_] => true
  | r1 :: r2 :: rs => decide (r1.tmax < r2.tmin) && monoRefs (r2 :: rs)

/-- Modelled from the spec (section 4.4 check_extent): recursively verify a
committed subtree — header level matches the position, committed nodes are
non-empty with non-overlapping increasing child time-ranges, and every child
reference's aggregates equal the arithmetic over the elements of its
subtree. -/
def checkSubtree (store : List Page) : Nat → Nat → Nat → Bool
  | 0, _, _ => false
  | fuel+1, lvl, a =>
    match store[a]? with
    | some (.leaf _ d) => lvl == 0 && !d.isEmpty
    | some (.node l _ cs) =>
      l == lvl && decide (0 < lvl) && !cs.isEmpty && monoRefs cs &&
      cs.all fun r =>
        checkSubtree store fuel (lvl - 1) r.addr &&
        r == refOfData r.addr (subtreeElems store fuel r.addr)
    | none => false

/-- Verify every subtree hanging off a back-link chain at one level; the
chain must terminate at `EMPTY_ADDR` within the store (fuel-bounded). -/
def checkChain (store : List Page) : Nat → Nat → Option Nat → Bool
  | _, _, none => true
  | 0, _, some _ => false
  | fuel+1, lvl, some a =>
    match store[a]? with
    | some pg => checkSubtree store (fuel+1) lvl a && checkChain store fuel lvl pg.prevOf
    | none => false

/-- Modelled from the spec (section 4.4): `check_extent` applied to the
level-`lvl` extent whose last-committed tip is `tip`. -/
def check_extent (store : List Page) (lvl : Nat) (tip : Option Nat) : Bool :=
  checkChain store store.length lvl tip

/-- Is a page a leaf page? -/
def isLeafPage : Page → Bool
  | .leaf _ _ => true
  | .node _ _ _ => false

/-- Number of committed leaf pages in a store. -/
def leafCount (store : List Page) : Nat := (store.filter isLeafPage).length

/-- Number of `append` calls that returned `true` during `appendRun`. -/
def trueCount (cap K : Nat) : Nat → Nat
  | 0 => 0
  | n+1 => trueCount cap K n +
      (if (append cap K (appendRun cap K n) n (n : Int)).2 then 1 else 0)

/-- The first `n` pairs of the canonical workload `(i, i)`. -/
def pairs (n : Nat) : List (Ts × Val) := (List.range n).map fun i => (i, (i : Int))

end NBT

namespace NBT

/-- `o` is an address strictly below `n`, or `EMPTY_ADDR`. -/
def OptLt (o : Option Nat) (n : Nat) : Prop := ∀ a, o = some a → a < n

/-- All addresses inside a page committed at address `i` point strictly
below `i`, and committed pages are never empty. -/
def PageOK : Page → Nat → Prop
  | .leaf p d, i => OptLt p i ∧ d ≠ []
  | .node _ p cs, i => OptLt p i ∧ (∀ r ∈ cs, r.addr < i) ∧ cs ≠ []

/-- Well-formed store: every committed page references strictly older pages. -/
def WfStore (store : List Page) : Prop :=
  ∀ i pg, store[i]? = some pg → PageOK pg i

/-- The back-link of the page committed at `a` (or `EMPTY_ADDR`). -/
def pagePrev (store : List Page) (a : Nat) : Option Nat :=
  match store[a]? with
  | some pg => pg.prevOf
  | none => none

/-- Elements under the open nodes of an extent stack, top level first. -/
def collectN (store : List Page) (ns : List NodeExtent) : List (Ts × Val) :=
  ns.reverse.flatMap fun e => childElems store store.length e.children

/-- Invariant of the superblock-extent stack `nodes` (levels `b`, `b+1`, …):
every open node is non-empty with at most `K` children, all referenced
addresses lie below `bnd`, references recompute from their pages and carry
accurate aggregates, committed subtrees and chains pass the checker, and —
the structural heart — the back-link chain of the level below (tip
`tipBelow`), cut at the point already linked into this level's tip, is
exactly this level's open children (newest first). An exhausted stack forces
`tipBelow = EMPTY_ADDR`: a committed node always has an extent above it. -/
inductive StackOK (K : Nat) (store : List Page) (bnd : Nat) :
    Nat → Option Nat → List NodeExtent → Prop where
  | nil (b : Nat) : StackOK K store bnd b none []
  | cons (b : Nat) (tipBelow : Option Nat) (e : NodeExtent) (rest : List NodeExtent)
      (chne : e.children ≠ [])
      (chk : e.children.length ≤ K)
      (hprev : OptLt e.prev bnd)
      (haddr : ∀ r ∈ e.children, r.addr < bnd)
      (hpref : ∀ r ∈ e.children, pageRefAt store r.addr = r)
      (hsub : ∀ r ∈ e.children,
        checkSubtree store store.length (b - 1) r.addr = true)
      (hacc : ∀ r ∈ e.children,
        r = refOfData r.addr (subtreeElems store store.length r.addr))
      (hchn : checkChain store store.length b e.prev = true)
      (hlink : chainUntil store store.length tipBelow (stopAddr store e.prev)
        = (e.children.map Ref.addr).reverse)
      (hrest : StackOK K store bnd (b + 1) e.prev rest)
      (hmono : monoRefs e.children = true)
      (habove : ∀ e' ∈ rest, ∀ r' ∈ e'.children, ∀ rc ∈ e.children,
        r'.tmax < rc.tmin) :
      StackOK K store bnd b tipBelow (e :: rest)

/-- The state after appending an arbitrary workload `l` into a fresh list. -/
def appendList (cap K : Nat) (l : List (Ts × Val)) : ExtentsList :=
  l.foldl (fun xl p => (append cap K xl p.1 p.2).1) emptyList

/-- Full invariant of an `ExtentsList` reachable by appends. -/
structure Inv (cap K : Nat) (xl : ExtentsList) : Prop where
  wf : WfStore xl.store
  leafNone : xl.leafE = none → xl.nodes = [] ∧ xl.store = []
  bufNE : ∀ le, xl.leafE = some le → le.buf ≠ []
  bufLe : ∀ le, xl.leafE = some le → le.buf.length ≤ cap
  leafPrev : ∀ le, xl.leafE = some le → OptLt le.prev xl.store.length
  chk0 : ∀ le, xl.leafE = some le →
    checkChain xl.store xl.store.length 0 le.prev = true
  stack : ∀ le, xl.leafE = some le →
    StackOK K xl.store xl.store.length 1 le.prev xl.nodes
  sorted : List.Pairwise (fun p q : Ts × Val => p.1 < q.1) (collect xl)

theorem optLt_mono {o : Option Nat} {n m : Nat} (h : OptLt o n) (hnm : n ≤ m) :
    OptLt o m :=
  fun a ha => lt_of_lt_of_le (h a ha) hnm

theorem pageOK_prev {pg : Page} {i : Nat} (h : PageOK pg i) : OptLt pg.prevOf i := by
  cases pg with
  | leaf p d => exact h.1
  | node lvl p cs => exact h.1

theorem getElem?_append_l {α : Type} (l l' : List α) (i : Nat) (h : i < l.length) :
    (l ++ l')[i]? = l[i]? := by
  rw [List.getElem?_append]
  simp [h]

theorem getElem?_some_lt {α : Type} {l : List α} {i : Nat} {x : α}
    (h : l[i]? = some x) : i < l.length :=
  (List.getElem?_eq_some.mp h).1

theorem wf_append {store : List Page} {p : Page} (wf : WfStore store)
    (hp : PageOK p store.length) : WfStore (store ++ [p]) := by
  intro i pg hi
  by_cases h : i < store.length
  · rw [getElem?_append_l _ _ _ h] at hi
    exact wf i pg hi
  · have hlen : i < store.length + 1 := by
      have := getElem?_some_lt hi
      simpa using this
    have hieq : i = store.length := by omega
    subst hieq
    have : pg = p := by
      rw [List.getElem?_append_right (Nat.le_refl _)] at hi
      simpa using hi.symm
    subst this
    exact hp

theorem getElem?_snoc_self {α : Type} (l : List α) (x : α) :
    (l ++ [x])[l.length]? = some x := by
  simp

theorem subtreeElems_ext {store : List Page} (ext : List Page) (wf : WfStore store) :
    ∀ (fuel a : Nat), a < store.length →
      subtreeElems (store ++ ext) fuel a = subtreeElems store fuel a := by
  intro fuel
  induction fuel with
  | zero => intro a _; rfl
  | succ f ih =>
    intro a ha
    simp only [subtreeElems]
    rw [getElem?_append_l _ _ _ ha]
    cases h : store[a]? with
    | none => rfl
    | some pg =>
      cases pg with
      | leaf p d => rfl
      | node lvl p cs =>
        exact List.flatMap_congr fun r hr =>
          ih r.addr (lt_trans ((wf a _ h).2.1 r hr) ha)

theorem subtreeElems_stab {store : List Page} (wf : WfStore store) :
    ∀ (a f g : Nat), a < f → a < g →
      subtreeElems store f a = subtreeElems store g a := by
  intro a
  induction a using Nat.strong_induction_on with
  | _ a ih =>
    intro f g hf hg
    obtain ⟨f', rfl⟩ : ∃ f', f = f' + 1 := ⟨f - 1, by omega⟩
    obtain ⟨g', rfl⟩ : ∃ g', g = g' + 1 := ⟨g - 1, by omega⟩
    simp only [subtreeElems]
    cases h : store[a]? with
    | none => rfl
    | some pg =>
      cases pg with
      | leaf p d => rfl
      | node lvl p cs =>
        refine List.flatMap_congr fun r hr => ?_
        have hra : r.addr < a := (wf a _ h).2.1 r hr
        exact ih r.addr hra f' g' (by omega) (by omega)

theorem chainUntil_ext {store : List Page} (ext : List Page) (wf : WfStore store) :
    ∀ (fuel : Nat) (tip stop : Option Nat), OptLt tip store.length →
      chainUntil (store ++ ext) fuel tip stop = chainUntil store fuel tip stop := by
  intro fuel
  induction fuel with
  | zero => intro tip stop _; cases tip <;> rfl
  | succ f ih =>
    intro tip stop htip
    cases tip with
    | none => rfl
    | some a =>
      have ha : a < store.length := htip a rfl
      simp only [chainUntil]
      rw [getElem?_append_l _ _ _ ha]
      cases h : store[a]? with
      | none => rfl
      | some pg =>
        by_cases hs : stop = some a
        · simp [hs]
        · simp only [if_neg hs]
          show a :: chainUntil (store ++ ext) f pg.prevOf stop
              = a :: chainUntil store f pg.prevOf stop
          rw [ih pg.prevOf stop
            (optLt_mono (pageOK_prev (wf a pg h)) (le_of_lt ha))]

theorem chainUntil_stab {store : List Page} (wf : WfStore store) :
    ∀ (a f g : Nat) (stop : Option Nat), a < f → a < g →
      chainUntil store f (some a) stop = chainUntil store g (some a) stop := by
  intro a
  induction a using Nat.strong_induction_on with
  | _ a ih =>
    intro f g stop hf hg
    obtain ⟨f', rfl⟩ : ∃ f', f = f' + 1 := ⟨f - 1, by omega⟩
    obtain ⟨g', rfl⟩ : ∃ g', g = g' + 1 := ⟨g - 1, by omega⟩
    simp only [chainUntil]
    by_cases hs : stop = some a
    · simp [hs]
    · simp only [if_neg hs]
      cases h : store[a]? with
      | none => rfl
      | some pg =>
        show a :: chainUntil store f' pg.prevOf stop
            = a :: chainUntil store g' pg.prevOf stop
        cases hp : pg.prevOf with
        | none => simp [chainUntil]
        | some b =>
          have hb : b < a := pageOK_prev (wf a pg h) b hp
          rw [ih b hb f' g' stop (by omega) (by omega)]

theorem stopAddr_ext {store : List Page} (ext : List Page) {p : Option Nat}
    (hp : OptLt p store.length) : stopAddr (store ++ ext) p = stopAddr store p := by
  cases p with
  | none => rfl
  | some a =>
    have ha : a < store.length := hp a rfl
    simp only [stopAddr]
    rw [getElem?_append_l _ _ _ ha]

theorem pageRefAt_ext {store : List Page} (ext : List Page) {a : Nat}
    (ha : a < store.length) : pageRefAt (store ++ ext) a = pageRefAt store a := by
  simp only [pageRefAt]
  rw [getElem?_append_l _ _ _ ha]

end NBT

namespace NBT

theorem all_congr {α : Type} {l : List α} {p q : α → Bool}
    (h : ∀ x ∈ l, p x = q x) : l.all p = l.all q := by
  induction l with
  | nil => rfl
  | cons x xs ih =>
    simp only [List.all_cons, h x (by simp)]
    rw [ih fun y hy => h y (by simp [hy])]

theorem checkSubtree_ext {store : List Page} (ext : List Page) (wf : WfStore store) :
    ∀ (fuel lvl a : Nat), a < store.length →
      checkSubtree (store ++ ext) fuel lvl a = checkSubtree store fuel lvl a := by
  intro fuel
  induction fuel with
  | zero => intro lvl a _; rfl
  | succ f ih =>
    intro lvl a ha
    simp only [checkSubtree]
    rw [getElem?_append_l _ _ _ ha]
    cases h : store[a]? with
    | none => rfl
    | some pg =>
      cases pg with
      | leaf p d => rfl
      | node l p cs =>
        have hcs : ∀ r ∈ cs, r.addr < a := (wf a _ h).2.1
        have heq : cs.all (fun r =>
            checkSubtree (store ++ ext) f (lvl - 1) r.addr &&
            r == refOfData r.addr (subtreeElems (store ++ ext) f r.addr))
          = cs.all (fun r =>
            checkSubtree store f (lvl - 1) r.addr &&
            r == refOfData r.addr (subtreeElems store f r.addr)) := by
          refine all_congr fun r hr => ?_
          have hra : r.addr < store.length := lt_trans (hcs r hr) ha
          rw [ih (lvl - 1) r.addr hra, subtreeElems_ext ext wf f r.addr hra]
        show (l == lvl && decide (0 < lvl) && !cs.isEmpty && monoRefs cs &&
            cs.all fun r =>
            checkSubtree (store ++ ext) f (lvl - 1) r.addr &&
            r == refOfData r.addr (subtreeElems (store ++ ext) f r.addr))
          = (l == lvl && decide (0 < lvl) && !cs.isEmpty && monoRefs cs &&
            cs.all fun r =>
            checkSubtree store f (lvl - 1) r.addr &&
            r == refOfData r.addr (subtreeElems store f r.addr))
        rw [heq]

theorem checkSubtree_stab {store : List Page} (wf : WfStore store) :
    ∀ (a f g lvl : Nat), a < f → a < g →
      checkSubtree store f lvl a = checkSubtree store g lvl a := by
  intro a
  induction a using Nat.strong_induction_on with
  | _ a ih =>
    intro f g lvl hf hg
    obtain ⟨f', rfl⟩ : ∃ f', f = f' + 1 := ⟨f - 1, by omega⟩
    obtain ⟨g', rfl⟩ : ∃ g', g = g' + 1 := ⟨g - 1, by omega⟩
    simp only [checkSubtree]
    cases h : store[a]? with
    | none => rfl
    | some pg =>
      cases pg with
      | leaf p d => rfl
      | node l p cs =>
        have hcs : ∀ r ∈ cs, r.addr < a := (wf a _ h).2.1
        have heq : cs.all (fun r =>
            checkSubtree store f' (lvl - 1) r.addr &&
            r == refOfData r.addr (subtreeElems store f' r.addr))
          = cs.all (fun r =>
            checkSubtree store g' (lvl - 1) r.addr &&
            r == refOfData r.addr (subtreeElems store g' r.addr)) := by
          refine all_congr fun r hr => ?_
          have hra : r.addr < a := hcs r hr
          rw [ih r.addr hra f' g' (lvl - 1) (by omega) (by omega),
            subtreeElems_stab wf r.addr f' g' (by omega) (by omega)]
        show (l == lvl && decide (0 < lvl) && !cs.isEmpty && monoRefs cs &&
            cs.all fun r =>
            checkSubtree store f' (lvl - 1) r.addr &&
            r == refOfData r.addr (subtreeElems store f' r.addr))
          = (l == lvl && decide (0 < lvl) && !cs.isEmpty && monoRefs cs &&
            cs.all fun r =>
            checkSubtree store g' (lvl - 1) r.addr &&
            r == refOfData r.addr (subtreeElems store g' r.addr))
        rw [heq]

theorem checkChain_ext {store : List Page} (ext : List Page) (wf : WfStore store) :
    ∀ (fuel lvl : Nat) (tip : Option Nat), OptLt tip store.length →
      checkChain (store ++ ext) fuel lvl tip = checkChain store fuel lvl tip := by
  intro fuel
  induction fuel with
  | zero => intro lvl tip _; cases tip <;> rfl
  | succ f ih =>
    intro lvl tip htip
    cases tip with
    | none => rfl
    | some a =>
      have ha : a < store.length := htip a rfl
      simp only [checkChain]
      rw [getElem?_append_l _ _ _ ha]
      cases h : store[a]? with
      | none => rfl
      | some pg =>
        show (checkSubtree (store ++ ext) (f+1) lvl a &&
              checkChain (store ++ ext) f lvl pg.prevOf)
            = (checkSubtree store (f+1) lvl a && checkChain store f lvl pg.prevOf)
        rw [checkSubtree_ext ext wf (f+1) lvl a ha,
          ih lvl pg.prevOf (optLt_mono (pageOK_prev (wf a pg h)) (le_of_lt ha))]

theorem checkChain_stab {store : List Page} (wf : WfStore store) :
    ∀ (a f g lvl : Nat), a < f → a < g →
      checkChain store f lvl (some a) = checkChain store g lvl (some a) := by
  intro a
  induction a using Nat.strong_induction_on with
  | _ a ih =>
    intro f g lvl hf hg
    obtain ⟨f', rfl⟩ : ∃ f', f = f' + 1 := ⟨f - 1, by omega⟩
    obtain ⟨g', rfl⟩ : ∃ g', g = g' + 1 := ⟨g - 1, by omega⟩
    simp only [checkChain]
    cases h : store[a]? with
    | none => rfl
    | some pg =>
      show (checkSubtree store (f'+1) lvl a && checkChain store f' lvl pg.prevOf)
          = (checkSubtree store (g'+1) lvl a && checkChain store g' lvl pg.prevOf)
      rw [checkSubtree_stab wf a (f'+1) (g'+1) lvl (by omega) (by omega)]
      cases hp : pg.prevOf with
      | none => simp [checkChain]
      | some b =>
        have hb : b < a := pageOK_prev (wf a pg h) b hp
        rw [ih b hb f' g' lvl (by omega) (by omega)]

theorem checkSubtree_nonempty {store : List Page} :
    ∀ (fuel lvl a : Nat), checkSubtree store fuel lvl a = true →
      subtreeElems store fuel a ≠ [] := by
  intro fuel
  induction fuel with
  | zero => intro lvl a h; simp [checkSubtree] at h
  | succ f ih =>
    intro lvl a h
    simp only [checkSubtree] at h
    simp only [subtreeElems]
    cases hpg : store[a]? with
    | none => rw [hpg] at h; simp at h
    | some pg =>
      rw [hpg] at h
      cases pg with
      | leaf p d =>
        have h' : (lvl == 0 && !d.isEmpty) = true := h
        show d ≠ []
        cases d with
        | nil => simp at h'
        | cons x xs => simp
      | node l p cs =>
        have h' : (l == lvl && decide (0 < lvl) && !cs.isEmpty && monoRefs cs &&
            cs.all fun r =>
            checkSubtree store f (lvl - 1) r.addr &&
            r == refOfData r.addr (subtreeElems store f r.addr)) = true := h
        show cs.flatMap (fun r => subtreeElems store f r.addr) ≠ []
        simp only [Bool.and_eq_true, List.all_eq_true] at h'
        obtain ⟨⟨⟨_, hne⟩, _⟩, hall⟩ := h'
        cases cs with
        | nil => simp at hne
        | cons r rs =>
          have hr := hall r (by simp)
          simp only [Bool.and_eq_true] at hr
          have hsub := ih (lvl - 1) r.addr hr.1
          simp only [List.flatMap_cons, ne_eq, List.append_eq_nil]
          intro hc
          exact hsub hc.1

end NBT

namespace NBT

theorem foldl_min_init {α : Type} [LinearOrder α] :
    ∀ (l : List α) (a b : α), l.foldl min (min a b) = min a (l.foldl min b) := by
  intro l
  induction l with
  | nil => intro a b; rfl
  | cons x xs ih =>
    intro a b
    simp only [List.foldl_cons]
    rw [min_assoc, ih]

theorem foldl_max_init {α : Type} [LinearOrder α] :
    ∀ (l : List α) (a b : α), l.foldl max (max a b) = max a (l.foldl max b) := by
  intro l
  induction l with
  | nil => intro a b; rfl
  | cons x xs ih =>
    intro a b
    simp only [List.foldl_cons]
    rw [max_assoc, ih]

theorem minD_cons_ne {α : Type} [LinearOrder α] (d x : α) (l : List α) (h : l ≠ []) :
    minD d (x :: l) = min x (minD d l) := by
  cases l with
  | nil => exact absurd rfl h
  | cons y ys =>
    show (y :: ys).foldl min x = min x ((ys).foldl min y)
    simp only [List.foldl_cons]
    exact foldl_min_init ys x y

theorem maxD_cons_ne {α : Type} [LinearOrder α] (d x : α) (l : List α) (h : l ≠ []) :
    maxD d (x :: l) = max x (maxD d l) := by
  cases l with
  | nil => exact absurd rfl h
  | cons y ys =>
    show (y :: ys).foldl max x = max x ((ys).foldl max y)
    simp only [List.foldl_cons]
    exact foldl_max_init ys x y

theorem minD_append_ne {α : Type} [LinearOrder α] (d : α) (l1 l2 : List α)
    (h1 : l1 ≠ []) (h2 : l2 ≠ []) :
    minD d (l1 ++ l2) = min (minD d l1) (minD d l2) := by
  cases l1 with
  | nil => exact absurd rfl h1
  | cons x xs =>
    cases l2 with
    | nil => exact absurd rfl h2
    | cons y ys =>
      show (xs ++ y :: ys).foldl min x = min ((xs).foldl min x) ((ys).foldl min y)
      rw [List.foldl_append]
      simp only [List.foldl_cons]
      exact foldl_min_init ys (xs.foldl min x) y

theorem maxD_append_ne {α : Type} [LinearOrder α] (d : α) (l1 l2 : List α)
    (h1 : l1 ≠ []) (h2 : l2 ≠ []) :
    maxD d (l1 ++ l2) = max (maxD d l1) (maxD d l2) := by
  cases l1 with
  | nil => exact absurd rfl h1
  | cons x xs =>
    cases l2 with
    | nil => exact absurd rfl h2
    | cons y ys =>
      show (xs ++ y :: ys).foldl max x = max ((xs).foldl max x) ((ys).foldl max y)
      rw [List.foldl_append]
      simp only [List.foldl_cons]
      exact foldl_max_init ys (xs.foldl max x) y

theorem flatMap_ne_nil {α β : Type} (l : List α) (f : α → List β)
    (hl : l ≠ []) (hne : ∀ x ∈ l, f x ≠ []) : l.flatMap f ≠ [] := by
  cases l with
  | nil => exact absurd rfl hl
  | cons x xs =>
    simp only [List.flatMap_cons, ne_eq, List.append_eq_nil]
    intro hc
    exact hne x (by simp) hc.1

theorem minD_flatMap {α β : Type} [LinearOrder β] (d : β) :
    ∀ (l : List α) (f : α → List β), l ≠ [] → (∀ x ∈ l, f x ≠ []) →
      minD d (l.flatMap f) = minD d (l.map fun x => minD d (f x)) := by
  intro l
  induction l with
  | nil => intro f hl _; exact absurd rfl hl
  | cons x xs ih =>
    intro f _ hne
    by_cases hxs : xs = []
    · subst hxs
      simp only [List.flatMap_cons, List.flatMap_nil, List.append_nil,
        List.map_cons, List.map_nil]
      rfl
    · rw [List.flatMap_cons, List.map_cons]
      have hflat : xs.flatMap f ≠ [] :=
        flatMap_ne_nil xs f hxs (fun z hz => hne z (by simp [hz]))
      rw [minD_append_ne d (f x) (xs.flatMap f) (hne x (by simp)) hflat]
      rw [ih f hxs (fun z hz => hne z (by simp [hz]))]
      rw [minD_cons_ne d (minD d (f x)) (xs.map fun z => minD d (f z))
        (by simp [hxs])]

theorem maxD_flatMap {α β : Type} [LinearOrder β] (d : β) :
    ∀ (l : List α) (f : α → List β), l ≠ [] → (∀ x ∈ l, f x ≠ []) →
      maxD d (l.flatMap f) = maxD d (l.map fun x => maxD d (f x)) := by
  intro l
  induction l with
  | nil => intro f hl _; exact absurd rfl hl
  | cons x xs ih =>
    intro f _ hne
    by_cases hxs : xs = []
    · subst hxs
      simp only [List.flatMap_cons, List.flatMap_nil, List.append_nil,
        List.map_cons, List.map_nil]
      rfl
    · rw [List.flatMap_cons, List.map_cons]
      have hflat : xs.flatMap f ≠ [] :=
        flatMap_ne_nil xs f hxs (fun z hz => hne z (by simp [hz]))
      rw [maxD_append_ne d (f x) (xs.flatMap f) (hne x (by simp)) hflat]
      rw [ih f hxs (fun z hz => hne z (by simp [hz]))]
      rw [maxD_cons_ne d (maxD d (f x)) (xs.map fun z => maxD d (f z))
        (by simp [hxs])]

theorem sum_flatMap {α β : Type} [AddCommMonoid β] (l : List α) (f : α → List β) :
    (l.flatMap f).sum = (l.map fun x => (f x).sum).sum := by
  induction l with
  | nil => rfl
  | cons x xs ih => simp [List.flatMap_cons, ih]

/-- The aggregation rule is consistent: a superblock's aggregates computed
from accurate child references equal the aggregates computed directly from
the concatenated elements of the subtrees. -/
theorem refOfChildren_acc (a : Nat) (cs : List Ref) (E : Ref → List (Ts × Val))
    (hcs : cs ≠ [])
    (hacc : ∀ r ∈ cs, r = refOfData r.addr (E r))
    (hne : ∀ r ∈ cs, E r ≠ []) :
    refOfChildren a cs = refOfData a (cs.flatMap E) := by
  have htsne : ∀ r ∈ cs, tsOf (E r) ≠ [] := by
    intro r hr
    simpa [tsOf] using hne r hr
  have hvsne : ∀ r ∈ cs, vsOf (E r) ≠ [] := by
    intro r hr
    simpa [vsOf] using hne r hr
  have hflatTs : tsOf (cs.flatMap E) = cs.flatMap fun r => tsOf (E r) := by
    simp [tsOf, List.map_flatMap]
  have hflatVs : vsOf (cs.flatMap E) = cs.flatMap fun r => vsOf (E r) := by
    simp [vsOf, List.map_flatMap]
  have h1 : (cs.map Ref.cnt).sum = (cs.flatMap E).length := by
    rw [List.length_flatMap]
    congr 1
    refine List.map_congr_left fun r hr => ?_
    conv_lhs => rw [hacc r hr]
    rfl
  have h2 : minD 0 (cs.map Ref.tmin) = minD 0 (tsOf (cs.flatMap E)) := by
    rw [hflatTs, minD_flatMap 0 cs _ hcs htsne]
    congr 1
    refine List.map_congr_left fun r hr => ?_
    conv_lhs => rw [hacc r hr]
    rfl
  have h3 : maxD 0 (cs.map Ref.tmax) = maxD 0 (tsOf (cs.flatMap E)) := by
    rw [hflatTs, maxD_flatMap 0 cs _ hcs htsne]
    congr 1
    refine List.map_congr_left fun r hr => ?_
    conv_lhs => rw [hacc r hr]
    rfl
  have h4 : minD 0 (cs.map Ref.vmin) = minD 0 (vsOf (cs.flatMap E)) := by
    rw [hflatVs, minD_flatMap 0 cs _ hcs hvsne]
    congr 1
    refine List.map_congr_left fun r hr => ?_
    conv_lhs => rw [hacc r hr]
    rfl
  have h5 : maxD 0 (cs.map Ref.vmax) = maxD 0 (vsOf (cs.flatMap E)) := by
    rw [hflatVs, maxD_flatMap 0 cs _ hcs hvsne]
    congr 1
    refine List.map_congr_left fun r hr => ?_
    conv_lhs => rw [hacc r hr]
    rfl
  have h6 : (cs.map Ref.vsum).sum = (vsOf (cs.flatMap E)).sum := by
    rw [hflatVs, sum_flatMap]
    congr 1
    refine List.map_congr_left fun r hr => ?_
    conv_lhs => rw [hacc r hr]
    rfl
  simp only [refOfChildren, refOfData]
  rw [h1, h2, h3, h4, h5, h6]

end NBT

namespace NBT

theorem pagePrev_ext {store : List Page} (ext : List Page) {a : Nat}
    (ha : a < store.length) : pagePrev (store ++ ext) a = pagePrev store a := by
  simp only [pagePrev]
  rw [getElem?_append_l _ _ _ ha]

theorem pagePrev_lt {store : List Page} (wf : WfStore store) (a : Nat) :
    OptLt (pagePrev store a) a := by
  intro b hb
  simp only [pagePrev] at hb
  cases h : store[a]? with
  | none => rw [h] at hb; cases hb
  | some pg => rw [h] at hb; exact pageOK_prev (wf a pg h) b hb

theorem subtreeElems_ext_stab {store : List Page} (wf : WfStore store)
    (ext : List Page) {a : Nat} (ha : a < store.length) (f : Nat) (hf : a < f) :
    subtreeElems (store ++ ext) f a = subtreeElems store store.length a := by
  rw [subtreeElems_ext ext wf f a ha]
  exact subtreeElems_stab wf a f store.length hf ha

theorem childElems_ext_stab {store : List Page} (wf : WfStore store)
    (ext : List Page) {cs : List Ref} (hcs : ∀ r ∈ cs, r.addr < store.length)
    (f : Nat) (hf : ∀ r ∈ cs, r.addr < f) :
    childElems (store ++ ext) f cs = childElems store store.length cs :=
  List.flatMap_congr fun r hr =>
    subtreeElems_ext_stab wf ext (hcs r hr) f (hf r hr)

theorem chainUntil_congr {store : List Page} (wf : WfStore store)
    (tip stop : Option Nat) (f g : Nat) (h : ∀ a, tip = some a → a < f ∧ a < g) :
    chainUntil store f tip stop = chainUntil store g tip stop := by
  cases tip with
  | none => cases f <;> cases g <;> rfl
  | some a => exact chainUntil_stab wf a f g stop (h a rfl).1 (h a rfl).2

theorem chainUntil_ext_stab {store : List Page} (wf : WfStore store)
    (ext : List Page) {tip : Option Nat} (stop : Option Nat)
    (htip : OptLt tip store.length) (f : Nat) (hf : ∀ a, tip = some a → a < f) :
    chainUntil (store ++ ext) f tip stop = chainUntil store store.length tip stop := by
  rw [chainUntil_ext ext wf f tip stop htip]
  exact chainUntil_congr wf tip stop f store.length
    (fun a ha => ⟨hf a ha, htip a ha⟩)

theorem checkSubtree_ext_stab {store : List Page} (wf : WfStore store)
    (ext : List Page) {a : Nat} (lvl : Nat) (ha : a < store.length)
    (f : Nat) (hf : a < f) :
    checkSubtree (store ++ ext) f lvl a = checkSubtree store store.length lvl a := by
  rw [checkSubtree_ext ext wf f lvl a ha]
  exact checkSubtree_stab wf a f store.length lvl hf ha

theorem checkChain_congr {store : List Page} (wf : WfStore store)
    (lvl : Nat) (tip : Option Nat) (f g : Nat)
    (h : ∀ a, tip = some a → a < f ∧ a < g) :
    checkChain store f lvl tip = checkChain store g lvl tip := by
  cases tip with
  | none => cases f <;> cases g <;> rfl
  | some a => exact checkChain_stab wf a f g lvl (h a rfl).1 (h a rfl).2

theorem checkChain_ext_stab {store : List Page} (wf : WfStore store)
    (ext : List Page) {tip : Option Nat} (lvl : Nat)
    (htip : OptLt tip store.length) (f : Nat) (hf : ∀ a, tip = some a → a < f) :
    checkChain (store ++ ext) f lvl tip = checkChain store store.length lvl tip := by
  rw [checkChain_ext ext wf f lvl tip htip]
  exact checkChain_congr wf lvl tip f store.length
    (fun a ha => ⟨hf a ha, htip a ha⟩)

theorem stopAddr_lt {store : List Page} (wf : WfStore store) {p : Option Nat}
    {n : Nat} (hp : OptLt p n) : OptLt (stopAddr store p) n := by
  cases p with
  | none => intro s hs; cases hs
  | some a =>
    have ha : a < n := hp a rfl
    intro s hs
    simp only [stopAddr] at hs
    cases h : store[a]? with
    | none => rw [h] at hs; cases hs
    | some pg =>
      rw [h] at hs
      cases pg with
      | leaf p' d => cases hs
      | node l p' cs =>
        have hmem : s ∈ cs.map Ref.addr := List.mem_of_mem_getLast? hs
        obtain ⟨r, hr, rfl⟩ := List.mem_map.mp hmem
        exact lt_trans ((wf a _ h).2.1 r hr) ha

theorem chainUntil_stop_self (store : List Page) (a : Nat) (f : Nat) :
    chainUntil store f (some a) (some a) = [] := by
  cases f with
  | zero => rfl
  | succ f' => simp [chainUntil]

theorem chainUntil_head {store : List Page} {f : Nat} {tip stop : Option Nat}
    {x : Nat} {xs : List Nat} (h : chainUntil store f tip stop = x :: xs) :
    tip = some x := by
  cases tip with
  | none => cases f <;> cases h
  | some a =>
    cases f with
    | zero => cases h
    | succ f' =>
      simp only [chainUntil] at h
      by_cases hs : stop = some a
      · rw [if_pos hs] at h; cases h
      · rw [if_neg hs] at h
        cases hpg : store[a]? with
        | none => rw [hpg] at h; cases h
        | some pg =>
          rw [hpg] at h
          cases h
          rfl

theorem collectN_cons (store : List Page) (e : NodeExtent) (ns : List NodeExtent) :
    collectN store (e :: ns)
      = collectN store ns ++ childElems store store.length e.children := by
  simp [collectN, List.flatMap_append]

theorem collectN_ext_stab {store : List Page} (wf : WfStore store)
    (ext : List Page) {ns : List NodeExtent}
    (h : ∀ e ∈ ns, ∀ r ∈ e.children, r.addr < store.length) :
    collectN (store ++ ext) ns = collectN store ns := by
  simp only [collectN]
  refine List.flatMap_congr fun e he => ?_
  have he' : e ∈ ns := List.mem_reverse.mp he
  refine childElems_ext_stab wf ext (h e he') _ fun r hr => ?_
  calc r.addr < store.length := h e he' r hr
    _ ≤ (store ++ ext).length := by simp

theorem StackOK_some_ne_nil {K : Nat} {store : List Page} {bnd b x : Nat}
    {ns : List NodeExtent} (h : StackOK K store bnd b (some x) ns) : ns ≠ [] := by
  cases h with
  | cons => simp

theorem StackOK_mono_bnd {K : Nat} {store : List Page} {bnd bnd' b : Nat}
    {tip : Option Nat} {ns : List NodeExtent} (hb : bnd ≤ bnd')
    (h : StackOK K store bnd b tip ns) : StackOK K store bnd' b tip ns := by
  induction h with
  | nil b => exact .nil b
  | cons b tipBelow e rest chne chk hprev haddr hpref hsub hacc hchn hlink hrest hmono habove ih =>
    exact .cons b tipBelow e rest chne chk (optLt_mono hprev hb)
      (fun r hr => lt_of_lt_of_le (haddr r hr) hb) hpref hsub hacc hchn hlink ih
      hmono habove

theorem StackOK_ext {K : Nat} {store : List Page} {bnd b : Nat}
    {tip : Option Nat} {ns : List NodeExtent}
    (wf : WfStore store) (ext : List Page) (wf' : WfStore (store ++ ext))
    (hbnd : bnd ≤ store.length) (htip : OptLt tip store.length)
    (h : StackOK K store bnd b tip ns) :
    StackOK K (store ++ ext) bnd b tip ns := by
  induction h with
  | nil b => exact .nil b
  | cons b tipBelow e rest chne chk hprev haddr hpref hsub hacc hchn hlink hrest hmono habove ih =>
    have hprevLen : OptLt e.prev store.length := optLt_mono hprev hbnd
    have haddrLen : ∀ r ∈ e.children, r.addr < store.length :=
      fun r hr => lt_of_lt_of_le (haddr r hr) hbnd
    refine .cons b tipBelow e rest chne chk hprev haddr ?_ ?_ ?_ ?_ ?_ (ih hprevLen)
      hmono habove
    · intro r hr
      rw [pageRefAt_ext ext (haddrLen r hr)]
      exact hpref r hr
    · intro r hr
      rw [checkSubtree_ext_stab wf ext (b - 1) (haddrLen r hr)
        (store ++ ext).length (by have := haddrLen r hr; simp; omega)]
      exact hsub r hr
    · intro r hr
      rw [subtreeElems_ext_stab wf ext (haddrLen r hr)
        (store ++ ext).length (by have := haddrLen r hr; simp; omega)]
      exact hacc r hr
    · rw [checkChain_ext_stab wf ext b hprevLen (store ++ ext).length
        (fun a ha => by have := hprevLen a ha; simp; omega)]
      exact hchn
    · rw [stopAddr_ext ext hprevLen,
        chainUntil_ext_stab wf ext _ htip (store ++ ext).length
          (fun a ha => by have := htip a ha; simp; omega)]
      exact hlink

end NBT


namespace NBT

theorem StackOK_addrLt {K : Nat} {store : List Page} {bnd b : Nat}
    {tip : Option Nat} {ns : List NodeExtent} (h : StackOK K store bnd b tip ns) :
    ∀ e ∈ ns, ∀ r ∈ e.children, r.addr < bnd := by
  induction h with
  | nil => intro e he; cases he
  | cons b tipBelow e rest chne chk hprev haddr hpref hsub hacc hchn hlink hrest hmono habove ih =>
    intro e' he'
    rcases List.mem_cons.mp he' with rfl | hmem
    · exact haddr
    · exact ih e' hmem

theorem StackOK_nil_tip {K : Nat} {store : List Page} {bnd b : Nat}
    {tip : Option Nat} (h : StackOK K store bnd b tip []) : tip = none := by
  cases h
  rfl

theorem chainUntil_none (store : List Page) (f : Nat) (stop : Option Nat) :
    chainUntil store f none stop = [] := by
  cases f <;> rfl

theorem checkChain_none (store : List Page) (f lvl : Nat) :
    checkChain store f lvl none = true := by
  cases f <;> rfl

theorem getElem?_eq_getElem_of_lt {α : Type} {l : List α} {i : Nat}
    (h : i < l.length) : l[i]? = some l[i] :=
  List.getElem?_eq_getElem h

theorem chainUntil_cons {store : List Page} {a : Nat} {stop : Option Nat}
    (f : Nat) (ha : a < store.length) (hstop : stop ≠ some a) :
    chainUntil store (f + 1) (some a) stop
      = a :: chainUntil store f (pagePrev store a) stop := by
  simp only [chainUntil, if_neg hstop]
  have hget : store[a]? = some store[a] := getElem?_eq_getElem_of_lt ha
  rw [hget]
  show a :: chainUntil store f (store[a]).prevOf stop = _
  have : pagePrev store a = (store[a]).prevOf := by
    simp only [pagePrev]; rw [hget]
  rw [this]

theorem checkChain_cons {store : List Page} {a : Nat} (f lvl : Nat)
    (ha : a < store.length) :
    checkChain store (f + 1) lvl (some a)
      = (checkSubtree store (f + 1) lvl a
          && checkChain store f lvl (pagePrev store a)) := by
  simp only [checkChain]
  have hget : store[a]? = some store[a] := getElem?_eq_getElem_of_lt ha
  rw [hget]
  show (checkSubtree store (f + 1) lvl a
      && checkChain store f lvl (store[a]).prevOf) = _
  have : pagePrev store a = (store[a]).prevOf := by
    simp only [pagePrev]; rw [hget]
  rw [this]

end NBT

namespace NBT

theorem foldl_min_mem {α : Type} [LinearOrder α] :
    ∀ (l : List α) (x : α), l.foldl min x ∈ x :: l := by
  intro l
  induction l with
  | nil => intro x; simp
  | cons y ys ih =>
    intro x
    show (ys.foldl min (min x y)) ∈ x :: y :: ys
    have hmem := ih (min x y)
    rcases List.mem_cons.mp hmem with h | h
    · rcases min_choice x y with hm | hm
      · rw [h, hm]; simp
      · rw [h, hm]; simp
    · simp [h]

theorem foldl_max_mem {α : Type} [LinearOrder α] :
    ∀ (l : List α) (x : α), l.foldl max x ∈ x :: l := by
  intro l
  induction l with
  | nil => intro x; simp
  | cons y ys ih =>
    intro x
    show (ys.foldl max (max x y)) ∈ x :: y :: ys
    have hmem := ih (max x y)
    rcases List.mem_cons.mp hmem with h | h
    · rcases max_choice x y with hm | hm
      · rw [h, hm]; simp
      · rw [h, hm]; simp
    · simp [h]

theorem minD_mem {α : Type} [LinearOrder α] (d : α) {l : List α} (h : l ≠ []) :
    minD d l ∈ l := by
  cases l with
  | nil => exact absurd rfl h
  | cons x xs =>
    show lmin x xs ∈ x :: xs
    exact foldl_min_mem xs x

theorem maxD_mem {α : Type} [LinearOrder α] (d : α) {l : List α} (h : l ≠ []) :
    maxD d l ∈ l := by
  cases l with
  | nil => exact absurd rfl h
  | cons x xs =>
    show lmax x xs ∈ x :: xs
    exact foldl_max_mem xs x

theorem monoRefs_snoc : ∀ (cs : List Ref) (r : Ref), monoRefs cs = true →
    (∀ rc ∈ cs, rc.tmax < r.tmin) → monoRefs (cs ++ [r]) = true := by
  intro cs
  induction cs with
  | nil => intro r _ _; rfl
  | cons x xs ih =>
    intro r hmono hlt
    cases xs with
    | nil =>
      show (decide (x.tmax < r.tmin) && monoRefs [r]) = true
      simp [monoRefs, hlt x (by simp)]
    | cons y ys =>
      have hmono' : (decide (x.tmax < y.tmin) && monoRefs (y :: ys)) = true := hmono
      simp only [Bool.and_eq_true] at hmono'
      show (decide (x.tmax < y.tmin) && monoRefs ((y :: ys) ++ [r])) = true
      rw [ih r hmono'.2 (fun rc hrc => hlt rc (by simp [hrc])), hmono'.1]
      rfl

theorem StackOK_acc {K : Nat} {store : List Page} {bnd b : Nat}
    {tip : Option Nat} {ns : List NodeExtent} (h : StackOK K store bnd b tip ns) :
    ∀ e ∈ ns, ∀ r ∈ e.children,
      r = refOfData r.addr (subtreeElems store store.length r.addr) := by
  induction h with
  | nil => intro e he; cases he
  | cons b tipBelow e rest chne chk hprev haddr hpref hsub hacc hchn hlink hrest hmono habove ih =>
    intro e' he'
    rcases List.mem_cons.mp he' with rfl | hmem
    · exact hacc
    · exact ih e' hmem

theorem StackOK_subne {K : Nat} {store : List Page} {bnd b : Nat}
    {tip : Option Nat} {ns : List NodeExtent} (h : StackOK K store bnd b tip ns) :
    ∀ e ∈ ns, ∀ r ∈ e.children,
      subtreeElems store store.length r.addr ≠ [] := by
  induction h with
  | nil => intro e he; cases he
  | cons b tipBelow e rest chne chk hprev haddr hpref hsub hacc hchn hlink hrest hmono habove ih =>
    intro e' he'
    rcases List.mem_cons.mp he' with rfl | hmem
    · intro r hr
      exact checkSubtree_nonempty store.length (b - 1) r.addr (hsub r hr)
    · exact ih e' hmem

theorem mem_collectN {store : List Page} {ns : List NodeExtent}
    {e : NodeExtent} (he : e ∈ ns) {r : Ref} (hr : r ∈ e.children)
    {p : Ts × Val} (hp : p ∈ subtreeElems store store.length r.addr) :
    p ∈ collectN store ns := by
  refine List.mem_flatMap.mpr ⟨e, List.mem_reverse.mpr he, ?_⟩
  exact List.mem_flatMap.mpr ⟨r, hr, hp⟩

end NBT

namespace NBT

/-- Commit-bubble correctness: pushing the reference of the page just
committed at the end of the store preserves well-formedness and the stack
invariant (with the new page as the tip below the stack), extends the store
with superblock pages only, and appends exactly the committed page's
elements to the visible data. -/
theorem pushRef_spec (K : Nat) (hK : 1 ≤ K) :
    ∀ (nodes : List NodeExtent) (store : List Page) (lvl : Nat) (r : Ref),
    1 ≤ lvl →
    WfStore store →
    r.addr + 1 = store.length →
    pageRefAt store r.addr = r →
    r = refOfData r.addr (subtreeElems store store.length r.addr) →
    checkSubtree store store.length (lvl - 1) r.addr = true →
    (∀ e' ∈ nodes, ∀ r' ∈ e'.children, r'.tmax < r.tmin) →
    StackOK K store r.addr lvl (pagePrev store r.addr) nodes →
    ∃ ext : List Page,
      (pushRef K store lvl nodes r).1 = store ++ ext ∧
      (∀ p ∈ ext, isLeafPage p = false) ∧
      WfStore (store ++ ext) ∧
      StackOK K (store ++ ext) (store ++ ext).length lvl (some r.addr)
        (pushRef K store lvl nodes r).2 ∧
      collectN (store ++ ext) (pushRef K store lvl nodes r).2
        = collectN store nodes ++ subtreeElems store store.length r.addr ∧
      (∀ B : Ts, (∀ e' ∈ nodes, ∀ r' ∈ e'.children, r'.tmax < B) → r.tmax < B →
        ∀ e' ∈ (pushRef K store lvl nodes r).2, ∀ r' ∈ e'.children,
          r'.tmax < B) := by
  intro nodes
  induction nodes with
  | nil =>
    intro store lvl r hlvl wf hlen hpref hacc hchk hord hstack
    have hppr : pagePrev store r.addr = none := StackOK_nil_tip hstack
    have hra : r.addr < store.length := by omega
    refine ⟨[], by simp [pushRef], by simp, ?_, ?_, ?_, ?_⟩
    · rw [List.append_nil]; exact wf
    · rw [List.append_nil]
      show StackOK K store store.length lvl (some r.addr) [⟨none, [r]⟩]
      refine .cons lvl (some r.addr) ⟨none, [r]⟩ [] (by simp) (by simpa using hK)
        (fun a ha => by cases ha) ?_ ?_ ?_ ?_ ?_ ?_ (.nil (lvl + 1)) rfl
        (by intro e' he'; cases he')
      · intro r' hr'
        rcases List.mem_singleton.mp hr' with rfl
        omega
      · intro r' hr'
        rcases List.mem_singleton.mp hr' with rfl
        exact hpref
      · intro r' hr'
        rcases List.mem_singleton.mp hr' with rfl
        exact hchk
      · intro r' hr'
        rcases List.mem_singleton.mp hr' with rfl
        exact hacc
      · exact checkChain_none store store.length lvl
      · show chainUntil store store.length (some r.addr) (stopAddr store none)
            = ([r].map Ref.addr).reverse
        obtain ⟨f, hf⟩ : ∃ f, store.length = f + 1 := ⟨store.length - 1, by omega⟩
        rw [hf]
        show chainUntil store (f + 1) (some r.addr) none = [r.addr]
        rw [chainUntil_cons f (by omega) (by simp), hppr, chainUntil_none]
    · rw [List.append_nil]
      show collectN store [⟨none, [r]⟩] = collectN store [] ++ _
      rw [collectN_cons]
      simp [collectN, childElems]
    · intro B hB1 hB2 e' he' r' hr'
      have he'' : e' = ⟨none, [r]⟩ := by
        simpa [pushRef] using he'
      subst he''
      rcases List.mem_singleton.mp hr' with rfl
      exact hB2
  | cons e rest ih =>
    intro store lvl r hlvl wf hlen hpref hacc hchk hord hstack
    have hra : r.addr < store.length := by omega
    obtain ⟨tip, htipdef⟩ : ∃ tip, tip = pagePrev store r.addr := ⟨_, rfl⟩
    rw [← htipdef] at hstack
    cases hstack with
    | cons _ _ _ _ chne chk hprev haddr hprefC hsub haccC hchn hlink hrest hmonoC haboveC =>
      rw [htipdef] at hlink
      by_cases hfull : e.children.length < K
      · -- the open node has room: absorb the reference
        have hpush : pushRef K store lvl (e :: rest) r
            = (store, ⟨e.prev, e.children ++ [r]⟩ :: rest) := by
          simp [pushRef, hfull]
        refine ⟨[], by simp [hpush], by simp, by rw [List.append_nil]; exact wf,
          ?_, ?_, ?_⟩
        · rw [List.append_nil, hpush]
          show StackOK K store store.length lvl (some r.addr)
            (⟨e.prev, e.children ++ [r]⟩ :: rest)
          refine .cons lvl (some r.addr) ⟨e.prev, e.children ++ [r]⟩ rest
            (by simp) (by simp; omega)
            (optLt_mono hprev (by omega)) ?_ ?_ ?_ ?_ hchn ?_
            (StackOK_mono_bnd (by omega) hrest)
            (monoRefs_snoc e.children r hmonoC (fun rc hrc => hord e (by simp) rc hrc))
            (by
              intro e' he' r' hr' rc hrc
              rcases List.mem_append.mp hrc with hm | hm
              · exact haboveC e' he' r' hr' rc hm
              · rcases List.mem_singleton.mp hm with rfl
                exact hord e' (by simp [he']) r' hr')
          · intro r' hr'
            rcases List.mem_append.mp hr' with hm | hm
            · have := haddr r' hm; omega
            · rcases List.mem_singleton.mp hm with rfl; omega
          · intro r' hr'
            rcases List.mem_append.mp hr' with hm | hm
            · exact hprefC r' hm
            · rcases List.mem_singleton.mp hm with rfl; exact hpref
          · intro r' hr'
            rcases List.mem_append.mp hr' with hm | hm
            · exact hsub r' hm
            · rcases List.mem_singleton.mp hm with rfl; exact hchk
          · intro r' hr'
            rcases List.mem_append.mp hr' with hm | hm
            · exact haccC r' hm
            · rcases List.mem_singleton.mp hm with rfl; exact hacc
          · show chainUntil store store.length (some r.addr) (stopAddr store e.prev)
              = ((e.children ++ [r]).map Ref.addr).reverse
            have hrhs : ((e.children ++ [r]).map Ref.addr).reverse
                = r.addr :: (e.children.map Ref.addr).reverse := by
              simp
            rw [hrhs]
            obtain ⟨f, hf⟩ : ∃ f, store.length = f + 1 := ⟨store.length - 1, by omega⟩
            have hstop : stopAddr store e.prev ≠ some r.addr := by
              intro hcontra
              have := stopAddr_lt wf hprev r.addr hcontra
              omega
            rw [hf, chainUntil_cons f (by omega) hstop]
            have : chainUntil store f (pagePrev store r.addr) (stopAddr store e.prev)
                = chainUntil store store.length (pagePrev store r.addr)
                    (stopAddr store e.prev) := by
              refine chainUntil_congr wf _ _ f store.length fun b hb => ?_
              have h1 := pagePrev_lt wf r.addr b hb
              omega
            rw [this, hlink]
        · rw [List.append_nil, hpush]
          show collectN store (⟨e.prev, e.children ++ [r]⟩ :: rest)
            = collectN store (e :: rest) ++ _
          rw [collectN_cons, collectN_cons]
          have : childElems store store.length (e.children ++ [r])
              = childElems store store.length e.children
                ++ subtreeElems store store.length r.addr := by
            simp [childElems, List.flatMap_append]
          rw [this, List.append_assoc]
        · intro B hB1 hB2 e' he' r' hr'
          simp only [hpush] at he'
          rcases List.mem_cons.mp he' with rfl | hm
          · rcases List.mem_append.mp hr' with hm2 | hm2
            · exact hB1 e (by simp) r' hm2
            · rcases List.mem_singleton.mp hm2 with rfl
              exact hB2
          · exact hB1 e' (by simp [hm]) r' hr'
      · -- the open node is full: commit it first, then recurse upward
        have hpok : PageOK (Page.node lvl e.prev e.children) store.length := by
          refine ⟨optLt_mono hprev (by omega), fun r' hr' => ?_, chne⟩
          have := haddr r' hr'; omega
        have wf1 : WfStore (store ++ [Page.node lvl e.prev e.children]) :=
          wf_append wf hpok
        set pg := Page.node lvl e.prev e.children with hpg
        set store1 := store ++ [pg] with hstore1
        set a := store.length with ha
        set r1 := refOfChildren a e.children with hr1
        have hr1a : r1.addr = a := rfl
        have hlenS1 : store1.length = a + 1 := by
          rw [hstore1]; simp
        have hlen1 : r1.addr + 1 = store1.length := by
          rw [hr1a, hlenS1]
        have hget1 : store1[a]? = some pg := by
          rw [hstore1, ha]
          exact getElem?_snoc_self store pg
        have hpref1 : pageRefAt store1 a = r1 := by
          simp only [pageRefAt]
          rw [hget1]
        have hE : subtreeElems store1 store1.length a
            = childElems store store.length e.children := by
          rw [hlenS1]
          show (match store1[a]? with
            | some (.leaf _ d) => d
            | some (.node _ _ cs) => cs.flatMap (fun r' => subtreeElems store1 a r'.addr)
            | none => []) = _
          rw [hget1]
          show childElems store1 a e.children = _
          rw [hstore1]
          exact childElems_ext_stab wf [pg]
            (fun r' hr' => by have := haddr r' hr'; omega) a
            (fun r' hr' => by have := haddr r' hr'; omega)
        have hacc1 : r1 = refOfData a (subtreeElems store1 store1.length a) := by
          rw [hE]
          exact refOfChildren_acc a e.children _ chne haccC
            (fun r' hr' => checkSubtree_nonempty _ (lvl - 1) r'.addr (hsub r' hr'))
        have hchk1 : checkSubtree store1 store1.length lvl a = true := by
          rw [hlenS1]
          show (match store1[a]? with
            | some (.leaf _ d) => (lvl == 0 && !d.isEmpty)
            | some (.node l _ cs) =>
              l == lvl && decide (0 < lvl) && !cs.isEmpty && monoRefs cs &&
              cs.all fun r' =>
                checkSubtree store1 a (lvl - 1) r'.addr &&
                r' == refOfData r'.addr (subtreeElems store1 a r'.addr)
            | none => false) = true
          rw [hget1]
          show (lvl == lvl && decide (0 < lvl) && !e.children.isEmpty &&
            monoRefs e.children &&
            e.children.all fun r' =>
              checkSubtree store1 a (lvl - 1) r'.addr &&
              r' == refOfData r'.addr (subtreeElems store1 a r'.addr)) = true
          simp only [Bool.and_eq_true, List.all_eq_true, beq_self_eq_true,
            decide_eq_true_eq]
          refine ⟨⟨⟨⟨trivial, by omega⟩, by simpa using chne⟩, hmonoC⟩,
            fun r' hr' => ?_⟩
          have hlt : r'.addr < store.length := by have := haddr r' hr'; omega
          have hlt' : r'.addr < a := by have := haddr r' hr'; omega
          have hcs : checkSubtree store1 a (lvl - 1) r'.addr = true := by
            rw [hstore1, checkSubtree_ext_stab wf [pg] (lvl - 1) hlt a hlt']
            exact hsub r' hr'
          have hse : subtreeElems store1 a r'.addr
              = subtreeElems store store.length r'.addr := by
            rw [hstore1]
            exact subtreeElems_ext_stab wf [pg] hlt a hlt'
          rw [hcs, hse]
          exact ⟨rfl, beq_iff_eq.mpr (haccC r' hr')⟩
        have hpp1 : pagePrev store1 a = e.prev := by
          simp only [pagePrev]
          rw [hget1]
          rfl
        have hstack1 : StackOK K store1 r1.addr (lvl + 1) (pagePrev store1 a) rest := by
          rw [hpp1, hr1a]
          have h1 : StackOK K store a (lvl + 1) e.prev rest :=
            StackOK_mono_bnd (by omega) hrest
          rw [hstore1]
          exact StackOK_ext wf [pg] wf1 (by omega) (optLt_mono hprev (by omega)) h1
        have hord1 : ∀ e' ∈ rest, ∀ r' ∈ e'.children, r'.tmax < r1.tmin := by
          intro e' he' r' hr'
          have hmin : r1.tmin = minD 0 (e.children.map Ref.tmin) := rfl
          have hmemb : minD 0 (e.children.map Ref.tmin) ∈ e.children.map Ref.tmin :=
            minD_mem 0 (by simpa using chne)
          obtain ⟨rc, hrc, hrceq⟩ := List.mem_map.mp hmemb
          rw [hmin, ← hrceq]
          exact haboveC e' he' r' hr' rc hrc
        have hr1max : ∀ B : Ts, (∀ rc ∈ e.children, rc.tmax < B) → r1.tmax < B := by
          intro B hBall
          have hmax : r1.tmax = maxD 0 (e.children.map Ref.tmax) := rfl
          have hmemb : maxD 0 (e.children.map Ref.tmax) ∈ e.children.map Ref.tmax :=
            maxD_mem 0 (by simpa using chne)
          obtain ⟨rc, hrc, hrceq⟩ := List.mem_map.mp hmemb
          rw [hmax, ← hrceq]
          exact hBall rc hrc
        obtain ⟨ext2, hst2, hpg2, wf2, hstack2, hcoll2, hB⟩ :=
          ih store1 (lvl + 1) r1 (by omega) wf1 hlen1 hpref1 hacc1
            (by simpa using hchk1) hord1 hstack1
        have hpush : pushRef K store lvl (e :: rest) r
            = ((pushRef K store1 (lvl + 1) rest r1).1,
               ⟨some a, [r]⟩ :: (pushRef K store1 (lvl + 1) rest r1).2) := by
          simp [pushRef, hfull, hstore1, hr1, ha, hpg]
        have hassoc : store ++ (pg :: ext2) = store1 ++ ext2 := by
          rw [hstore1]; simp
        have hS2len : a + 1 ≤ (store1 ++ ext2).length := by
          simp [hlenS1]
        refine ⟨pg :: ext2, ?_, ?_, ?_, ?_, ?_, ?_⟩
        · rw [hpush]
          show (pushRef K store1 (lvl + 1) rest r1).1 = store ++ (pg :: ext2)
          rw [hst2, hassoc]
        · intro p hp
          rcases List.mem_cons.mp hp with rfl | hm
          · rfl
          · exact hpg2 p hm
        · rw [hassoc]; exact wf2
        · rw [hpush, hassoc]
          show StackOK K (store1 ++ ext2) (store1 ++ ext2).length lvl (some r.addr)
            (⟨some a, [r]⟩ :: (pushRef K store1 (lvl + 1) rest r1).2)
          refine .cons lvl (some r.addr) ⟨some a, [r]⟩ _
            (by simp) (by simpa using hK) ?_ ?_ ?_ ?_ ?_ ?_ ?_ ?_ ?_ ?_
          · intro b hb
            have hab : some a = some b := hb
            cases hab
            omega
          · intro r' hr'
            rcases List.mem_singleton.mp hr' with rfl
            omega
          · intro r' hr'
            rcases List.mem_singleton.mp hr' with rfl
            have : store1 ++ ext2 = store ++ ([pg] ++ ext2) := by
              rw [hstore1]; simp
            rw [this, pageRefAt_ext ([pg] ++ ext2) hra]
            exact hpref
          · intro r' hr'
            rcases List.mem_singleton.mp hr' with rfl
            have heq : store1 ++ ext2 = store ++ ([pg] ++ ext2) := by
              rw [hstore1]; simp
            rw [heq, checkSubtree_ext_stab wf ([pg] ++ ext2) (lvl - 1) hra
              (store ++ ([pg] ++ ext2)).length (by simp; omega)]
            exact hchk
          · intro r' hr'
            rcases List.mem_singleton.mp hr' with rfl
            have heq : store1 ++ ext2 = store ++ ([pg] ++ ext2) := by
              rw [hstore1]; simp
            rw [heq, subtreeElems_ext_stab wf ([pg] ++ ext2) hra
              (store ++ ([pg] ++ ext2)).length (by simp; omega)]
            exact hacc
          · -- chain of committed level-`lvl` nodes passes the checker
            obtain ⟨f, hf⟩ : ∃ f, (store1 ++ ext2).length = f + 1 := by
              refine ⟨(store1 ++ ext2).length - 1, ?_⟩
              have := hS2len; omega
            show checkChain (store1 ++ ext2) (store1 ++ ext2).length lvl (some a) = true
            rw [hf, checkChain_cons f lvl (by omega)]
            have hppS2 : pagePrev (store1 ++ ext2) a = e.prev := by
              rw [pagePrev_ext ext2 (by omega), hpp1]
            have h1 : checkSubtree (store1 ++ ext2) (f + 1) lvl a = true := by
              rw [checkSubtree_ext_stab wf1 ext2 lvl (by omega) (f + 1) (by omega)]
              exact hchk1
            have h2 : checkChain (store1 ++ ext2) f lvl (pagePrev (store1 ++ ext2) a)
                = true := by
              rw [hppS2]
              have heq : store1 ++ ext2 = store ++ ([pg] ++ ext2) := by
                rw [hstore1]; simp
              have hprevLen : OptLt e.prev store.length := optLt_mono hprev (by omega)
              rw [heq, checkChain_ext_stab wf ([pg] ++ ext2) lvl hprevLen f
                (fun b hb => by have := hprevLen b hb; omega)]
              exact hchn
            rw [h1, h2]
            rfl
          · -- the fresh open node's chain is just the new page
            show chainUntil (store1 ++ ext2) (store1 ++ ext2).length (some r.addr)
              (stopAddr (store1 ++ ext2) (some a)) = ([r].map Ref.addr).reverse
            have hgetS2 : (store1 ++ ext2)[a]? = some pg := by
              rw [getElem?_append_l _ _ _ (by omega), hget1]
            have hstopS2 : stopAddr (store1 ++ ext2) (some a)
                = (e.children.map Ref.addr).getLast? := by
              simp only [stopAddr]
              rw [hgetS2]
            -- the last open child is the old tip below: identify the stop address
            have hchne' : (e.children.map Ref.addr).reverse ≠ [] := by
              simpa using chne
            obtain ⟨z, zs, hzzs⟩ : ∃ z zs, (e.children.map Ref.addr).reverse = z :: zs := by
              cases hzz : (e.children.map Ref.addr).reverse with
              | nil => exact absurd hzz hchne'
              | cons z zs => exact ⟨z, zs, rfl⟩
            have htipz : pagePrev store r.addr = some z := by
              refine chainUntil_head
                (show chainUntil store store.length (pagePrev store r.addr)
                  (stopAddr store e.prev) = z :: zs from ?_)
              rw [hlink, hzzs]
            have hlastz : (e.children.map Ref.addr).getLast? = some z := by
              rw [← List.head?_reverse, hzzs]
              rfl
            have hzlt : z < r.addr := pagePrev_lt wf r.addr z htipz
            obtain ⟨f, hf⟩ : ∃ f, (store1 ++ ext2).length = f + 1 := by
              refine ⟨(store1 ++ ext2).length - 1, ?_⟩
              have := hS2len; omega
            rw [hf, hstopS2, hlastz, chainUntil_cons f (by omega)
              (by intro hc; cases hc; omega)]
            have hppS2r : pagePrev (store1 ++ ext2) r.addr = some z := by
              have heq : store1 ++ ext2 = store ++ ([pg] ++ ext2) := by
                rw [hstore1]; simp
              rw [heq, pagePrev_ext ([pg] ++ ext2) hra]
              exact htipz
            rw [hppS2r, chainUntil_stop_self]
            simp
          · exact hstack2
          · rfl
          · have hBr : ∀ e' ∈ (pushRef K store1 (lvl + 1) rest r1).2,
                ∀ r' ∈ e'.children, r'.tmax < r.tmin := by
              refine hB r.tmin ?_ ?_
              · intro e'' he'' r'' hr''
                exact hord e'' (by simp [he'']) r'' hr''
              · exact hr1max r.tmin (fun rc hrc => hord e (by simp) rc hrc)
            intro e' he' r' hr' rc hrc
            rcases List.mem_singleton.mp hrc with rfl
            exact hBr e' he' r' hr'
        · rw [hpush, hassoc]
          show collectN (store1 ++ ext2)
              (⟨some a, [r]⟩ :: (pushRef K store1 (lvl + 1) rest r1).2)
            = collectN store (e :: rest) ++ subtreeElems store store.length r.addr
          rw [collectN_cons, hcoll2, hr1a]
          have hrest_aux : ∀ e' ∈ rest, ∀ r' ∈ e'.children, r'.addr < store.length := by
            intro e' he' r' hr'
            have := StackOK_addrLt hrest e' he' r' hr'
            omega
          have hcN : collectN store1 rest = collectN store rest := by
            rw [hstore1]
            exact collectN_ext_stab wf [pg] hrest_aux
          have hchE : childElems (store1 ++ ext2) (store1 ++ ext2).length [r]
              = subtreeElems store store.length r.addr := by
            have heq : store1 ++ ext2 = store ++ ([pg] ++ ext2) := by
              rw [hstore1]; simp
            simp only [childElems, List.flatMap_cons, List.flatMap_nil,
              List.append_nil]
            rw [heq, subtreeElems_ext_stab wf ([pg] ++ ext2) hra
              (store ++ ([pg] ++ ext2)).length (by simp; omega)]
          rw [hcN, hE, hchE, collectN_cons, List.append_assoc]
        · intro B hB1 hB2 e' he' r' hr'
          simp only [hpush] at he'
          rcases List.mem_cons.mp he' with rfl | hm
          · rcases List.mem_singleton.mp hr' with rfl
            exact hB2
          · refine hB B ?_ ?_ e' hm r' hr'
            · intro e'' he'' r'' hr''
              exact hB1 e'' (by simp [he'']) r'' hr''
            · exact hr1max B (fun rc hrc => hB1 e (by simp) rc hrc)

end NBT

namespace NBT

theorem StackOK_prevLt {K : Nat} {store : List Page} {bnd b : Nat}
    {tip : Option Nat} {ns : List NodeExtent} (h : StackOK K store bnd b tip ns) :
    ∀ e ∈ ns, OptLt e.prev bnd := by
  induction h with
  | nil => intro e he; cases he
  | cons b tipBelow e rest chne chk hprev haddr hpref hsub hacc hchn hlink hrest hmono habove ih =>
    intro e' he'
    rcases List.mem_cons.mp he' with rfl | hmem
    · exact hprev
    · exact ih e' hmem

theorem StackOK_getLast_prev {K : Nat} {store : List Page} {bnd b : Nat}
    {tip : Option Nat} {ns : List NodeExtent} (h : StackOK K store bnd b tip ns) :
    ∀ e, ns.getLast? = some e → e.prev = none := by
  induction h with
  | nil => intro e he; cases he
  | cons b tipBelow e rest chne chk hprev haddr hpref hsub hacc hchn hlink hrest hmono habove ih =>
    intro e' he'
    cases hr : rest with
    | nil =>
      subst hr
      have : e' = e := by simpa using he'.symm
      subst this
      exact StackOK_nil_tip hrest
    | cons e2 rest2 =>
      subst hr
      apply ih
      rw [← he']
      rfl

theorem leafCount_append (l1 l2 : List Page) :
    leafCount (l1 ++ l2) = leafCount l1 + leafCount l2 := by
  simp [leafCount, List.filter_append]

theorem leafCount_zero {l : List Page} (h : ∀ p ∈ l, isLeafPage p = false) :
    leafCount l = 0 := by
  simp only [leafCount, List.length_eq_zero]
  exact List.filter_eq_nil_iff.mpr fun p hp => by simp [h p hp]

/-- One append step: the invariant is preserved, the visible data gains
exactly the appended pair at the end, a `true` result adds a leaf page and
surfaces the fresh leaf address in the roots, a `false` result leaves the
store untouched and adds no committed address to the roots. -/
theorem append_spec (cap K : Nat) (hcap : 1 ≤ cap) (hK : 1 ≤ K)
    (xl : ExtentsList) (t : Ts) (v : Val) (hInv : Inv cap K xl)
    (hts : ∀ p ∈ collect xl, p.1 < t) :
    Inv cap K (append cap K xl t v).1 ∧
    collect (append cap K xl t v).1 = collect xl ++ [(t, v)] ∧
    ((append cap K xl t v).2 = true →
      some xl.store.length ∈ get_roots (append cap K xl t v).1 ∧
      leafCount (append cap K xl t v).1.store = leafCount xl.store + 1) ∧
    ((append cap K xl t v).2 = false →
      (get_roots (append cap K xl t v).1 = get_roots xl ∨
        (get_roots (append cap K xl t v).1 = [none] ∧ get_roots xl = [])) ∧
      (append cap K xl t v).1.store = xl.store) := by
  cases hle : xl.leafE with
  | none =>
    obtain ⟨hnodes, hstore⟩ := hInv.leafNone hle
    have happ : append cap K xl t v
        = ({ xl with leafE := some ⟨none, [(t, v)]⟩ }, false) := by
      simp [append, hle]
    have hco : collect { xl with leafE := some ⟨none, [(t, v)]⟩ }
        = collect xl ++ [(t, v)] := by
      simp [collect, hle, hnodes]
    rw [happ]
    refine ⟨?_, ?_, ?_, ?_⟩
    · exact {
        wf := hInv.wf
        leafNone := by intro h; cases h
        bufNE := by intro le hle'; cases hle'; simp
        bufLe := by intro le hle'; cases hle'; simpa using hcap
        leafPrev := by intro le hle'; cases hle'; intro y hy; cases hy
        chk0 := by intro le hle'; cases hle'; exact checkChain_none _ _ _
        stack := by
          intro le hle'; cases hle'
          show StackOK K xl.store xl.store.length 1 none xl.nodes
          rw [hnodes]
          exact .nil 1
        sorted := by
          show List.Pairwise _ (collect { xl with leafE := some ⟨none, [(t, v)]⟩ })
          rw [hco]
          refine List.pairwise_append.mpr
            ⟨hInv.sorted, List.pairwise_singleton _ _, ?_⟩
          intro p hp q hq
          rcases List.mem_singleton.mp hq with rfl
          exact hts p hp }
    · exact hco
    · intro h
      simp at h
    · intro _
      constructor
      · right
        constructor
        · simp [get_roots, hnodes]
        · simp [get_roots, hle]
      · rfl
  | some le =>
    by_cases hroom : le.buf.length < cap
    · have happ : append cap K xl t v
          = ({ xl with leafE := some ⟨le.prev, le.buf ++ [(t, v)]⟩ }, false) := by
        simp [append, hle, hroom]
      have hco : collect { xl with leafE := some ⟨le.prev, le.buf ++ [(t, v)]⟩ }
          = collect xl ++ [(t, v)] := by
        simp [collect, hle]
      rw [happ]
      refine ⟨?_, ?_, ?_, ?_⟩
      · exact {
          wf := hInv.wf
          leafNone := by intro h; cases h
          bufNE := by intro le' hle'; cases hle'; simp
          bufLe := by intro le' hle'; cases hle'; simp; omega
          leafPrev := by intro le' hle'; cases hle'; exact hInv.leafPrev le hle
          chk0 := by intro le' hle'; cases hle'; exact hInv.chk0 le hle
          stack := by intro le' hle'; cases hle'; exact hInv.stack le hle
          sorted := by
            show List.Pairwise _
              (collect { xl with leafE := some ⟨le.prev, le.buf ++ [(t, v)]⟩ })
            rw [hco]
            refine List.pairwise_append.mpr
              ⟨hInv.sorted, List.pairwise_singleton _ _, ?_⟩
            intro p hp q hq
            rcases List.mem_singleton.mp hq with rfl
            exact hts p hp }
      · exact hco
      · intro h
        simp at h
      · intro _
        refine ⟨Or.inl ?_, rfl⟩
        simp [get_roots, hle]
    · -- leaf is full: commit it and bubble
      have hbufne : le.buf ≠ [] := hInv.bufNE le hle
      have hprevlt : OptLt le.prev xl.store.length := hInv.leafPrev le hle
      set lpg := Page.leaf le.prev le.buf with hlpg
      set a := xl.store.length with hadef
      set store1 := xl.store ++ [lpg] with hstore1
      set r := refOfData a le.buf with hrdef
      have wf1 : WfStore store1 := wf_append hInv.wf ⟨hprevlt, hbufne⟩
      have hlenS1 : store1.length = a + 1 := by rw [hstore1]; simp
      have hget1 : store1[a]? = some lpg := by
        rw [hstore1, hadef]
        exact getElem?_snoc_self xl.store lpg
      have hra : r.addr = a := rfl
      have hsub1 : subtreeElems store1 store1.length a = le.buf := by
        rw [hlenS1]
        show (match store1[a]? with
          | some (.leaf _ d) => d
          | some (.node _ _ cs) => cs.flatMap (fun r' => subtreeElems store1 a r'.addr)
          | none => []) = le.buf
        rw [hget1]
      have happ : append cap K xl t v
          = (⟨(pushRef K store1 1 xl.nodes r).1, some ⟨some a, [(t, v)]⟩,
              (pushRef K store1 1 xl.nodes r).2⟩, true) := by
        simp [append, hle, hroom, hstore1, hrdef, hadef, hlpg]
      have hpp1 : pagePrev store1 a = le.prev := by
        simp only [pagePrev]
        rw [hget1]
        rfl
      have hstack1 : StackOK K store1 r.addr 1 (pagePrev store1 a) xl.nodes := by
        rw [hpp1, hra, hadef]
        rw [hstore1]
        exact StackOK_ext hInv.wf [lpg] wf1 (le_refl _) hprevlt (hInv.stack le hle)
      have hcross : ∀ p ∈ collectN xl.store xl.nodes, ∀ q ∈ le.buf, p.1 < q.1 := by
        have hpw := hInv.sorted
        have hc : collect xl = collectN xl.store xl.nodes ++ le.buf := by
          simp [collect, collectN, hle]
        rw [hc] at hpw
        exact (List.pairwise_append.mp hpw).2.2
      have hord : ∀ e' ∈ xl.nodes, ∀ r' ∈ e'.children, r'.tmax < r.tmin := by
        intro e' he' r' hr'
        have hacc' := StackOK_acc (hInv.stack le hle) e' he' r' hr'
        have hsne := StackOK_subne (hInv.stack le hle) e' he' r' hr'
        have htmax : r'.tmax
            = maxD 0 (tsOf (subtreeElems xl.store xl.store.length r'.addr)) := by
          conv_lhs => rw [hacc']
          rfl
        have htsne : tsOf (subtreeElems xl.store xl.store.length r'.addr) ≠ [] := by
          simp only [tsOf, ne_eq, List.map_eq_nil_iff]
          exact hsne
        have hmem1 := maxD_mem 0 htsne
        rw [← htmax] at hmem1
        obtain ⟨p', hp', hp'eq⟩ := List.mem_map.mp hmem1
        have hbts : tsOf le.buf ≠ [] := by
          simp only [tsOf, ne_eq, List.map_eq_nil_iff]
          exact hbufne
        have hmem2 := minD_mem 0 hbts
        obtain ⟨q, hq, hqeq⟩ := List.mem_map.mp hmem2
        have hrtmin : r.tmin = minD 0 (tsOf le.buf) := rfl
        rw [hrtmin, ← hqeq, ← hp'eq]
        exact hcross p' (mem_collectN he' hr' hp') q hq
      obtain ⟨ext2, hst2, hpg2, wf2, hstack2, hcoll2, hBcl⟩ :=
        pushRef_spec K hK xl.nodes store1 1 r (le_refl 1) wf1
          (by rw [hra, hlenS1]) (by rw [hra]; simp only [pageRefAt]; rw [hget1])
          (by rw [hra, hsub1])
          (by
            show checkSubtree store1 store1.length 0 r.addr = true
            rw [hra, hlenS1]
            show (match store1[a]? with
              | some (.leaf _ d) => ((0 : Nat) == 0 && !d.isEmpty)
              | some (.node l _ cs) =>
                l == 0 && decide (0 < 0) && !cs.isEmpty && monoRefs cs &&
                cs.all fun r' =>
                  checkSubtree store1 a (0 - 1) r'.addr &&
                  r' == refOfData r'.addr (subtreeElems store1 a r'.addr)
              | none => false) = true
            rw [hget1]
            show ((0 : Nat) == 0 && !le.buf.isEmpty) = true
            simp [hbufne])
          hord
          hstack1
      have haddrs : ∀ e ∈ xl.nodes, ∀ r' ∈ e.children, r'.addr < xl.store.length :=
        StackOK_addrLt (hInv.stack le hle)
      have hS2len : a + 1 ≤ (store1 ++ ext2).length := by simp [hlenS1]
      have heqS2 : store1 ++ ext2 = xl.store ++ ([lpg] ++ ext2) := by
        rw [hstore1]
        simp
      have hco : collectN (pushRef K store1 1 xl.nodes r).1
            (pushRef K store1 1 xl.nodes r).2 ++ [(t, v)]
          = collect xl ++ [(t, v)] := by
        congr 1
        rw [hst2, hcoll2, hra, hsub1]
        have hcc : collectN store1 xl.nodes = collectN xl.store xl.nodes := by
          rw [hstore1]
          exact collectN_ext_stab hInv.wf [lpg] haddrs
        rw [hcc]
        show collectN xl.store xl.nodes ++ le.buf = collect xl
        simp [collect, hle, collectN]
      rw [happ]
      refine ⟨?_, ?_, ?_, ?_⟩
      · refine {
          wf := by
            show WfStore (pushRef K store1 1 xl.nodes r).1
            rw [hst2]; exact wf2
          leafNone := by intro h; cases h
          bufNE := by intro le' hle'; cases hle'; simp
          bufLe := by intro le' hle'; cases hle'; simpa using hcap
          leafPrev := by
            intro le' hle'; cases hle'
            intro y hy
            cases hy
            show a < (pushRef K store1 1 xl.nodes r).1.length
            rw [hst2]
            omega
          chk0 := by
            intro le' hle'; cases hle'
            show checkChain (pushRef K store1 1 xl.nodes r).1
              (pushRef K store1 1 xl.nodes r).1.length 0 (some a) = true
            rw [hst2]
            obtain ⟨f, hf⟩ : ∃ f, (store1 ++ ext2).length = f + 1 :=
              ⟨(store1 ++ ext2).length - 1, by omega⟩
            rw [hf, checkChain_cons f 0 (by omega)]
            have h1 : checkSubtree (store1 ++ ext2) (f + 1) 0 a = true := by
              rw [checkSubtree_ext_stab wf1 ext2 0 (by omega) (f + 1) (by omega)]
              rw [hlenS1]
              show (match store1[a]? with
                | some (.leaf _ d) => ((0 : Nat) == 0 && !d.isEmpty)
                | some (.node l _ cs) =>
                  l == 0 && decide (0 < 0) && !cs.isEmpty && monoRefs cs &&
                  cs.all fun r' =>
                    checkSubtree store1 a (0 - 1) r'.addr &&
                    r' == refOfData r'.addr (subtreeElems store1 a r'.addr)
                | none => false) = true
              rw [hget1]
              show ((0 : Nat) == 0 && !le.buf.isEmpty) = true
              simp [hbufne]
            have h2 : checkChain (store1 ++ ext2) f 0 (pagePrev (store1 ++ ext2) a)
                = true := by
              have : pagePrev (store1 ++ ext2) a = le.prev := by
                rw [pagePrev_ext ext2 (by omega), hpp1]
              rw [this, heqS2, checkChain_ext_stab hInv.wf ([lpg] ++ ext2) 0 hprevlt f
                (fun y hy => by have := hprevlt y hy; omega)]
              exact hInv.chk0 le hle
            rw [h1, h2]
            rfl
          stack := by
            intro le' hle'; cases hle'
            show StackOK K (pushRef K store1 1 xl.nodes r).1
              (pushRef K store1 1 xl.nodes r).1.length 1 (some a)
              (pushRef K store1 1 xl.nodes r).2
            have := hstack2
            rw [hra] at this
            rw [hst2]
            exact this
          sorted := by
            show List.Pairwise _
              (collectN (pushRef K store1 1 xl.nodes r).1
                (pushRef K store1 1 xl.nodes r).2 ++ [(t, v)])
            rw [hco]
            refine List.pairwise_append.mpr
              ⟨hInv.sorted, List.pairwise_singleton _ _, ?_⟩
            intro p hp q hq
            rcases List.mem_singleton.mp hq with rfl
            exact hts p hp }
      · exact hco
      · intro _
        constructor
        · show some xl.store.length
            ∈ some a :: (pushRef K store1 1 xl.nodes r).2.map NodeExtent.prev
          rw [hadef]
          exact List.mem_cons_self _ _
        · show leafCount (pushRef K store1 1 xl.nodes r).1 = leafCount xl.store + 1
          rw [hst2, hstore1, leafCount_append, leafCount_append,
            leafCount_zero hpg2]
          simp [leafCount, isLeafPage, hlpg, List.filter]
      · intro h
        simp at h

end NBT

namespace NBT

theorem empty_inv (cap K : Nat) : Inv cap K emptyList := by
  refine {
    wf := by intro i pg h; simp [emptyList] at h
    leafNone := fun _ => ⟨rfl, rfl⟩
    bufNE := by intro le h; cases h
    bufLe := by intro le h; cases h
    leafPrev := by intro le h; cases h
    chk0 := by intro le h; cases h
    stack := by intro le h; cases h
    sorted := by
      show List.Pairwise _ (collect emptyList)
      exact List.Pairwise.nil }

theorem pairs_succ (n : Nat) : pairs (n + 1) = pairs n ++ [(n, (n : Int))] := by
  simp [pairs, List.range_succ]

/-- After `n` appends of `(i, i)` the invariant holds and the visible data
is exactly the appended sequence, in order. -/
theorem appendRun_state (cap K : Nat) (hcap : 1 ≤ cap) (hK : 1 ≤ K) :
    ∀ n, Inv cap K (appendRun cap K n) ∧ collect (appendRun cap K n) = pairs n := by
  intro n
  induction n with
  | zero => exact ⟨empty_inv cap K, rfl⟩
  | succ n ih =>
    have hts : ∀ p ∈ collect (appendRun cap K n), p.1 < n := by
      rw [ih.2]
      intro p hp
      simp only [pairs, List.mem_map, List.mem_range] at hp
      obtain ⟨i, hi, rfl⟩ := hp
      exact hi
    have h := append_spec cap K hcap hK (appendRun cap K n) n (n : Int) ih.1 hts
    refine ⟨h.1, ?_⟩
    show collect (append cap K (appendRun cap K n) n (n : Int)).1 = pairs (n + 1)
    rw [h.2.1, ih.2, pairs_succ]

theorem appendRun_inv (cap K : Nat) (hcap : 1 ≤ cap) (hK : 1 ≤ K) :
    ∀ n, Inv cap K (appendRun cap K n) :=
  fun n => (appendRun_state cap K hcap hK n).1

theorem appendRun_collect (cap K : Nat) (hcap : 1 ≤ cap) (hK : 1 ≤ K) :
    ∀ n, collect (appendRun cap K n) = pairs n :=
  fun n => (appendRun_state cap K hcap hK n).2

/-- Every timestamp appended by the canonical workload lies below the next
index to be appended. -/
theorem appendRun_ts_lt (cap K : Nat) (hcap : 1 ≤ cap) (hK : 1 ≤ K) (n : Nat) :
    ∀ p ∈ collect (appendRun cap K n), p.1 < n := by
  rw [appendRun_collect cap K hcap hK n]
  intro p hp
  simp only [pairs, List.mem_map, List.mem_range] at hp
  obtain ⟨i, hi, rfl⟩ := hp
  exact hi

end NBT

namespace NBT

theorem range_filter_interval (a b N : Nat) (hab : a ≤ b) (hbN : b ≤ N) :
    (List.range N).filter (fun i => decide (a ≤ i) && decide (i < b))
      = List.range' a (b - a) := by
  have hsplit : List.range N
      = (List.range' 0 a ++ List.range' a (b - a)) ++ List.range' b (N - b) := by
    rw [List.range_eq_range']
    rw [show List.range' 0 a ++ List.range' a (b - a) = List.range' 0 b by
      have := List.range'_append_1 0 a (b - a)
      rw [show (0 : Nat) + a = a from by omega] at this
      rw [this]
      congr 1
      omega]
    have := List.range'_append_1 0 b (N - b)
    rw [show (0 : Nat) + b = b from by omega] at this
    rw [this]
    congr 1
    omega
  rw [hsplit, List.filter_append, List.filter_append]
  have h1 : (List.range' 0 a).filter (fun i => decide (a ≤ i) && decide (i < b))
      = [] := by
    refine List.filter_eq_nil_iff.mpr fun i hi => ?_
    have := List.mem_range'_1.mp hi
    simp only [Bool.and_eq_true, decide_eq_true_eq, not_and]
    intro hc
    omega
  have h2 : (List.range' a (b - a)).filter (fun i => decide (a ≤ i) && decide (i < b))
      = List.range' a (b - a) := by
    refine List.filter_eq_self.mpr fun i hi => ?_
    have := List.mem_range'_1.mp hi
    simp only [Bool.and_eq_true, decide_eq_true_eq]
    omega
  have h3 : (List.range' b (N - b)).filter (fun i => decide (a ≤ i) && decide (i < b))
      = [] := by
    refine List.filter_eq_nil_iff.mpr fun i hi => ?_
    have := List.mem_range'_1.mp hi
    simp only [Bool.and_eq_true, decide_eq_true_eq, not_and]
    intro hc
    omega
  rw [h1, h2, h3]
  simp

theorem pairs_filter_fwd (a b N : Nat) (hab : a ≤ b) (hbN : b ≤ N) :
    (pairs N).filter (fun p => decide (a ≤ p.1) && decide (p.1 < b))
      = (List.range (b - a)).map (fun i => ((a + i : Nat), ((a + i : Nat) : Int))) := by
  show ((List.range N).map (fun i => ((i : Nat), (i : Int)))).filter _ = _
  rw [List.filter_map]
  have : ((List.range N).filter
      ((fun p : Ts × Val => decide (a ≤ p.1) && decide (p.1 < b))
        ∘ (fun i => ((i : Nat), (i : Int)))))
      = (List.range N).filter (fun i => decide (a ≤ i) && decide (i < b)) := by
    rfl
  rw [this, range_filter_interval a b N hab hbN, List.range'_eq_map_range]
  rw [List.map_map]
  rfl

theorem pairs_filter_bwd (b a N : Nat) (hba : b ≤ a) (haN : a < N) :
    ((pairs N).filter (fun p => decide (b < p.1) && decide (p.1 ≤ a))).reverse
      = (List.range (a - b)).map
          (fun i => ((a - i : Nat), ((a - i : Nat) : Int))) := by
  have hpred : (pairs N).filter (fun p => decide (b < p.1) && decide (p.1 ≤ a))
      = (pairs N).filter (fun p => decide (b + 1 ≤ p.1) && decide (p.1 < a + 1)) := by
    refine List.filter_congr fun p _ => ?_
    obtain ⟨pt, pv⟩ := p
    show (decide (b < pt) && decide (pt ≤ a)) = (decide (b + 1 ≤ pt) && decide (pt < a + 1))
    have h1 : decide (b < pt) = decide (b + 1 ≤ pt) :=
      decide_eq_decide.mpr ⟨fun h => h, fun h => h⟩
    have h2 : decide (pt ≤ a) = decide (pt < a + 1) :=
      decide_eq_decide.mpr (Iff.symm Nat.lt_succ_iff)
    rw [h1, h2]
  rw [hpred, pairs_filter_fwd (b + 1) (a + 1) N (by omega) (by omega)]
  rw [← List.map_reverse]
  have hrev : (List.range (a + 1 - (b + 1))).reverse
      = (List.range (a - b)).map (fun i => a - b - 1 - i) := by
    rw [show a + 1 - (b + 1) = a - b from by omega]
    rw [List.range_eq_range', List.reverse_range']
    simp [List.range_eq_range']
  rw [hrev, List.map_map]
  refine List.map_congr_left fun i hi => ?_
  have hiab : i < a - b := List.mem_range.mp hi
  show ((b + 1 + (a - b - 1 - i) : Nat), ((b + 1 + (a - b - 1 - i) : Nat) : Int))
      = ((a - i : Nat), ((a - i : Nat) : Int))
  have : b + 1 + (a - b - 1 - i) = a - i := by omega
  rw [this]

/-- Forward search over the canonical workload. -/
theorem search_appendRun_fwd (cap K N a b : Nat) (hcap : 1 ≤ cap) (hK : 1 ≤ K)
    (hab : a < b) (hbN : b ≤ N) :
    search (appendRun cap K N) a b
      = (List.range (b - a)).map (fun i => ((a + i : Nat), ((a + i : Nat) : Int))) := by
  rw [search, if_pos hab, appendRun_collect cap K hcap hK N]
  exact pairs_filter_fwd a b N (by omega) hbN

/-- Backward search over the canonical workload. -/
theorem search_appendRun_bwd (cap K N a b : Nat) (hcap : 1 ≤ cap) (hK : 1 ≤ K)
    (hba : b < a) (haN : a < N) :
    search (appendRun cap K N) a b
      = (List.range (a - b)).map (fun i => ((a - i : Nat), ((a - i : Nat) : Int))) := by
  rw [search, if_neg (show ¬ a < b by omega), appendRun_collect cap K hcap hK N]
  exact pairs_filter_bwd b a N (by omega) haN

end NBT

namespace NBT

theorem readChunks_all (c : Nat) (hc : 1 ≤ c) :
    ∀ (f : Nat) (it : List (Ts × Val)), it.length < f → readChunks f it c = it := by
  intro f
  induction f with
  | zero => intro it h; omega
  | succ f ih =>
    intro it hlen
    show (match (read it c).status with
      | .NO_DATA => (read it c).out
      | .OK => (read it c).out ++ readChunks f (read it c).rest c) = it
    by_cases h : c ≤ it.length
    · have hst : (read it c).status = .OK := by simp [read, h]
      rw [hst]
      show it.take c ++ readChunks f (it.drop c) c = it
      rw [ih (it.drop c) (by simp; omega)]
      exact List.take_append_drop c it
    · have hst : (read it c).status = .NO_DATA := by simp [read, h]
      rw [hst]
      show it.take c = it
      exact List.take_of_length_le (by omega)

/-- Chunked reading with any positive chunk size recovers the whole
iterator. -/
theorem chunkedRead_eq (c : Nat) (hc : 1 ≤ c) (it : List (Ts × Val)) :
    chunkedRead it c = it :=
  readChunks_all c hc (it.length + 1) it (by omega)

theorem appendList_step (cap K : Nat) (hcap : 1 ≤ cap) (hK : 1 ≤ K) :
    ∀ (l : List (Ts × Val)) (xl : ExtentsList), Inv cap K xl →
      List.Pairwise (fun p q : Ts × Val => p.1 < q.1) (collect xl ++ l) →
      Inv cap K (l.foldl (fun xl p => (append cap K xl p.1 p.2).1) xl) := by
  intro l
  induction l with
  | nil => intro xl h _; exact h
  | cons p ps ih =>
    intro xl h hpw
    have hts : ∀ q ∈ collect xl, q.1 < p.1 := by
      have hmid := (List.pairwise_append.mp hpw).2.2
      intro q hq
      exact hmid q hq p (by simp)
    have hstep := append_spec cap K hcap hK xl p.1 p.2 h hts
    show Inv cap K (ps.foldl (fun xl p => (append cap K xl p.1 p.2).1)
      (append cap K xl p.1 p.2).1)
    refine ih _ hstep.1 ?_
    rw [hstep.2.1]
    have hre : (collect xl ++ [(p.1, p.2)]) ++ ps = collect xl ++ (p :: ps) := by
      simp
    rw [hre]
    exact hpw

/-- Appending any time-ordered workload preserves the invariant. -/
theorem appendList_inv (cap K : Nat) (hcap : 1 ≤ cap) (hK : 1 ≤ K)
    (l : List (Ts × Val))
    (hl : List.Pairwise (fun p q : Ts × Val => p.1 < q.1) l) :
    Inv cap K (appendList cap K l) := by
  refine appendList_step cap K hcap hK l emptyList (empty_inv cap K) ?_
  show List.Pairwise _ (collect emptyList ++ l)
  simpa using hl

theorem roots_bound {cap K : Nat} {xl : ExtentsList} (hInv : Inv cap K xl) :
    ∀ o ∈ get_roots xl, OptLt o xl.store.length := by
  intro o ho
  cases hle : xl.leafE with
  | none => rw [get_roots, hle] at ho; cases ho
  | some le =>
    rw [get_roots, hle] at ho
    rcases List.mem_cons.mp ho with rfl | hmem
    · exact hInv.leafPrev le hle
    · obtain ⟨e, he, rfl⟩ := List.mem_map.mp hmem
      exact StackOK_prevLt (hInv.stack le hle) e he

theorem StackOK_chkN {K : Nat} {store : List Page} {bnd b : Nat}
    {tip : Option Nat} {ns : List NodeExtent} (h : StackOK K store bnd b tip ns) :
    ∀ i (hi : i < ns.length),
      checkChain store store.length (b + i) ((ns.get ⟨i, hi⟩).prev) = true := by
  induction h with
  | nil => intro i hi; simp at hi
  | cons b tipBelow e rest chne chk hprev haddr hpref hsub hacc hchn hlink hrest hmono habove ih =>
    intro i hi
    cases i with
    | zero => simpa using hchn
    | succ j =>
      have hj : j < rest.length := by simpa using hi
      have := ih j hj
      have harith : b + 1 + j = b + (j + 1) := by omega
      rw [harith] at this
      simpa using this

end NBT

namespace NBT

theorem pageRefAt_addr (store : List Page) (a : Nat) : (pageRefAt store a).addr = a := by
  simp only [pageRefAt]
  cases h : store[a]? with
  | none => rfl
  | some pg => cases pg <;> rfl

theorem subtree_snoc_node {store : List Page} (wf : WfStore store)
    (lvl : Nat) (prev : Option Nat) (cs : List Ref) (ext : List Page)
    (hcs : ∀ r ∈ cs, r.addr < store.length) :
    subtreeElems ((store ++ [Page.node lvl prev cs]) ++ ext)
        ((store ++ [Page.node lvl prev cs]) ++ ext).length store.length
      = childElems store store.length cs := by
  set pg := Page.node lvl prev cs with hpg
  obtain ⟨f, hf⟩ : ∃ f, ((store ++ [pg]) ++ ext).length = f + 1 :=
    ⟨((store ++ [pg]) ++ ext).length - 1, by simp; omega⟩
  have hflen : store.length ≤ f := by
    have : ((store ++ [pg]) ++ ext).length = store.length + 1 + ext.length := by
      simp; omega
    omega
  rw [hf]
  have hget : ((store ++ [pg]) ++ ext)[store.length]? = some pg := by
    rw [getElem?_append_l _ _ _ (by simp)]
    exact getElem?_snoc_self store pg
  show (match ((store ++ [pg]) ++ ext)[store.length]? with
    | some (.leaf _ d) => d
    | some (.node _ _ cs') =>
      cs'.flatMap (fun r => subtreeElems ((store ++ [pg]) ++ ext) f r.addr)
    | none => []) = childElems store store.length cs
  rw [hget]
  show childElems ((store ++ [pg]) ++ ext) f cs = childElems store store.length cs
  have heq : (store ++ [pg]) ++ ext = store ++ ([pg] ++ ext) := by simp
  rw [heq]
  exact childElems_ext_stab wf ([pg] ++ ext) hcs f
    (fun r hr => lt_of_lt_of_le (hcs r hr) hflen)

theorem subtree_snoc_leaf {store : List Page} (prev : Option Nat)
    (d : List (Ts × Val)) (ext : List Page) :
    subtreeElems ((store ++ [Page.leaf prev d]) ++ ext)
        ((store ++ [Page.leaf prev d]) ++ ext).length store.length = d := by
  set pg := Page.leaf prev d with hpg
  obtain ⟨f, hf⟩ : ∃ f, ((store ++ [pg]) ++ ext).length = f + 1 :=
    ⟨((store ++ [pg]) ++ ext).length - 1, by simp; omega⟩
  rw [hf]
  have hget : ((store ++ [pg]) ++ ext)[store.length]? = some pg := by
    rw [getElem?_append_l _ _ _ (by simp)]
    exact getElem?_snoc_self store pg
  show (match ((store ++ [pg]) ++ ext)[store.length]? with
    | some (.leaf _ d') => d'
    | some (.node _ _ cs') =>
      cs'.flatMap (fun r => subtreeElems ((store ++ [pg]) ++ ext) f r.addr)
    | none => []) = d
  rw [hget]

end NBT


namespace NBT

/-- Absorbing a run of bubbling references into one open extent during
`close`: the store only grows, the extent stays within bounds, and the
elements carried upward plus the elements still open equal the old open
elements plus the absorbed elements, in order. -/
theorem absorbAll_spec (K : Nat) (hK : 1 ≤ K) :
    ∀ (carry : List Ref) (store : List Page) (lvl : Nat) (e : NodeExtent),
    WfStore store →
    (∀ r ∈ carry, r.addr < store.length) →
    e.children.length ≤ K →
    OptLt e.prev store.length →
    (∀ r ∈ e.children, r.addr < store.length) →
    e.children ≠ [] →
    ∃ ext,
      (absorbAll K store lvl e carry).1 = store ++ ext ∧
      WfStore (store ++ ext) ∧
      (absorbAll K store lvl e carry).2.1.children ≠ [] ∧
      (absorbAll K store lvl e carry).2.1.children.length ≤ K ∧
      OptLt (absorbAll K store lvl e carry).2.1.prev (store ++ ext).length ∧
      (∀ r ∈ (absorbAll K store lvl e carry).2.1.children,
        r.addr < (store ++ ext).length) ∧
      (∀ r ∈ (absorbAll K store lvl e carry).2.2, r.addr < (store ++ ext).length) ∧
      childElems (store ++ ext) (store ++ ext).length
          (absorbAll K store lvl e carry).2.2
        ++ childElems (store ++ ext) (store ++ ext).length
          (absorbAll K store lvl e carry).2.1.children
        = childElems store store.length e.children
          ++ childElems store store.length carry := by
  intro carry
  induction carry with
  | nil =>
    intro store lvl e wf hcarry chk hprev haddr chne
    refine ⟨[], by simp [absorbAll], ?_, ?_, ?_, ?_, ?_, ?_, ?_⟩
    · rw [List.append_nil]
      exact wf
    · show e.children ≠ []
      exact chne
    · show e.children.length ≤ K
      exact chk
    · rw [List.append_nil]
      show OptLt e.prev store.length
      exact hprev
    · rw [List.append_nil]
      show ∀ r ∈ e.children, r.addr < store.length
      exact haddr
    · intro r hr
      cases hr
    · rw [List.append_nil]
      show childElems store store.length [] ++ childElems store store.length e.children
        = childElems store store.length e.children ++ childElems store store.length []
      simp [childElems]
  | cons r rs ih =>
    intro store lvl e wf hcarry chk hprev haddr chne
    have hrlt : r.addr < store.length := hcarry r (by simp)
    by_cases hroom : e.children.length < K
    · -- absorb with room
      have hred : absorbAll K store lvl e (r :: rs)
          = absorbAll K store lvl ⟨e.prev, e.children ++ [r]⟩ rs := by
        show (let s1 := absorb K store lvl e r
              let s2 := absorbAll K s1.1 lvl s1.2.1 rs
              (s2.1, s2.2.1, s1.2.2 ++ s2.2.2)) = _
        simp only [absorb, if_pos hroom]
        rfl
      rw [hred]
      obtain ⟨ext, hst, wf', chne', chk', hprev', haddr', hups', helems⟩ :=
        ih store lvl ⟨e.prev, e.children ++ [r]⟩ wf
          (fun r' hr' => hcarry r' (by simp [hr'])) (by simp; omega) hprev
          (by
            intro r' hr'
            rcases List.mem_append.mp hr' with hm | hm
            · exact haddr r' hm
            · rcases List.mem_singleton.mp hm with rfl; exact hrlt)
          (by simp)
      refine ⟨ext, hst, wf', chne', chk', hprev', haddr', hups', ?_⟩
      rw [helems]
      show childElems store store.length (e.children ++ [r])
          ++ childElems store store.length rs
        = childElems store store.length e.children
          ++ childElems store store.length (r :: rs)
      simp only [childElems, List.flatMap_append, List.flatMap_cons]
      simp [List.append_assoc]
    · -- the extent is full: commit it, pass its reference upward
      set pgb := Page.node lvl e.prev e.children with hpgb
      set b := store.length with hb
      set store1 := store ++ [pgb] with hstore1
      set refb := refOfChildren b e.children with hrefb
      have wf1 : WfStore store1 := wf_append wf ⟨hprev, haddr, chne⟩
      have hlen1 : store1.length = b + 1 := by rw [hstore1]; simp
      have hred : absorbAll K store lvl e (r :: rs)
          = ((absorbAll K store1 lvl ⟨some b, [r]⟩ rs).1,
             (absorbAll K store1 lvl ⟨some b, [r]⟩ rs).2.1,
             [refb] ++ (absorbAll K store1 lvl ⟨some b, [r]⟩ rs).2.2) := by
        show (let s1 := absorb K store lvl e r
              let s2 := absorbAll K s1.1 lvl s1.2.1 rs
              (s2.1, s2.2.1, s1.2.2 ++ s2.2.2)) = _
        simp only [absorb, if_neg hroom]
      obtain ⟨ext2, hst, wf', chne', chk', hprev', haddr', hups', helems⟩ :=
        ih store1 lvl ⟨some b, [r]⟩ wf1
          (fun r' hr' => by
            have := hcarry r' (by simp [hr'])
            rw [hlen1]
            omega)
          (by simpa using hK)
          (by intro y hy; cases hy; rw [hlen1]; omega)
          (by
            intro r' hr'
            rcases List.mem_singleton.mp hr' with rfl
            rw [hlen1]
            omega)
          (by simp)
      rw [hred]
      have heq : store ++ (pgb :: ext2) = store1 ++ ext2 := by
        rw [hstore1]
        simp
      refine ⟨pgb :: ext2, ?_, ?_, chne', chk', ?_, ?_, ?_, ?_⟩
      · show (absorbAll K store1 lvl ⟨some b, [r]⟩ rs).1 = store ++ (pgb :: ext2)
        rw [hst, heq]
      · rw [heq]
        exact wf'
      · rw [heq]
        exact hprev'
      · rw [heq]
        exact haddr'
      · rw [heq]
        intro r' hr'
        rcases List.mem_cons.mp hr' with rfl | hm
        · show b < (store1 ++ ext2).length
          have h1 : store1.length ≤ (store1 ++ ext2).length := by simp
          omega
        · exact hups' r' hm
      · rw [heq]
        show childElems (store1 ++ ext2) (store1 ++ ext2).length
            ([refb] ++ (absorbAll K store1 lvl ⟨some b, [r]⟩ rs).2.2)
          ++ childElems (store1 ++ ext2) (store1 ++ ext2).length
            (absorbAll K store1 lvl ⟨some b, [r]⟩ rs).2.1.children
          = childElems store store.length e.children
            ++ childElems store store.length (r :: rs)
        have hsplit : childElems (store1 ++ ext2) (store1 ++ ext2).length
            ([refb] ++ (absorbAll K store1 lvl ⟨some b, [r]⟩ rs).2.2)
          = subtreeElems (store1 ++ ext2) (store1 ++ ext2).length refb.addr
            ++ childElems (store1 ++ ext2) (store1 ++ ext2).length
              (absorbAll K store1 lvl ⟨some b, [r]⟩ rs).2.2 := by
          simp [childElems, List.flatMap_append]
        rw [hsplit]
        have hsubb : subtreeElems (store1 ++ ext2) (store1 ++ ext2).length refb.addr
            = childElems store store.length e.children := by
          show subtreeElems ((store ++ [pgb]) ++ ext2) ((store ++ [pgb]) ++ ext2).length b
            = childElems store store.length e.children
          exact subtree_snoc_node wf lvl e.prev e.children ext2 haddr
        rw [hsubb, List.append_assoc, helems]
        congr 1
        have h1 : childElems store1 store1.length [r]
            = childElems store store.length [r] := by
          refine childElems_ext_stab wf [pgb] ?_ store1.length ?_
          · intro r' hr'
            rcases List.mem_singleton.mp hr' with rfl
            exact hrlt
          · intro r' hr'
            rcases List.mem_singleton.mp hr' with rfl
            rw [hlen1]
            omega
        have h2 : childElems store1 store1.length rs
            = childElems store store.length rs := by
          refine childElems_ext_stab wf [pgb]
            (fun r' hr' => hcarry r' (by simp [hr'])) store1.length
            (fun r' hr' => by
              have := hcarry r' (by simp [hr'])
              rw [hlen1]
              omega)
        rw [h1, h2]
        show childElems store store.length [r] ++ childElems store store.length rs
          = childElems store store.length (r :: rs)
        simp [childElems]

end NBT

namespace NBT

/-- Closing the extent stack bottom-up produces a single root whose subtree
holds exactly the previously visible data followed by the carried data, and
a roots vector of the closed shape (`EMPTY_ADDR` everywhere except the top). -/
theorem closeNodes_spec (K : Nat) (hK : 1 ≤ K) :
    ∀ (nodes : List NodeExtent) (store : List Page) (lvl : Nat)
      (carry : List Ref) (tip : Option Nat),
    WfStore store →
    carry ≠ [] →
    (∀ r ∈ carry, r.addr < store.length) →
    StackOK K store store.length lvl tip nodes →
    ∃ ext A k,
      closeNodes K store lvl nodes carry
        = (store ++ ext, List.replicate k none ++ [some A]) ∧
      WfStore (store ++ ext) ∧
      A < (store ++ ext).length ∧
      subtreeElems (store ++ ext) (store ++ ext).length A
        = collectN store nodes ++ childElems store store.length carry := by
  intro nodes
  induction nodes with
  | nil =>
    intro store lvl carry tip wf hcne hcarry hstack
    cases carry with
    | nil => exact absurd rfl hcne
    | cons r1 rs =>
      cases rs with
      | nil =>
        -- a single carried reference is already the root
        refine ⟨[], r1.addr, 0, by simp [closeNodes], ?_, ?_, ?_⟩
        · rw [List.append_nil]
          exact wf
        · rw [List.append_nil]
          exact hcarry r1 (by simp)
        · rw [List.append_nil]
          show subtreeElems store store.length r1.addr
            = collectN store [] ++ childElems store store.length [r1]
          simp [collectN, childElems]
      | cons r2 rs2 =>
        -- several carried references: wrap them into one fresh root
        set pg := Page.node lvl none (r1 :: r2 :: rs2) with hpg
        refine ⟨[pg], store.length, 0, by simp [closeNodes, hpg], ?_, ?_, ?_⟩
        · refine wf_append wf ?_
          show OptLt none store.length ∧
            (∀ r' ∈ (r1 :: r2 :: rs2), r'.addr < store.length) ∧
            (r1 :: r2 :: rs2) ≠ []
          exact ⟨(fun y hy => by cases hy), hcarry, (by simp)⟩
        · simp
        · have := subtree_snoc_node wf lvl none (r1 :: r2 :: rs2) [] hcarry
          rw [List.append_nil] at this
          rw [this]
          show childElems store store.length (r1 :: r2 :: rs2)
            = collectN store [] ++ childElems store store.length (r1 :: r2 :: rs2)
          simp [collectN]
  | cons e rest ih =>
    intro store lvl carry tip wf hcne hcarry hstack
    cases hstack with
    | cons _ _ _ _ chne chk hprev haddr hprefC hsub haccC hchn hlink hrest hmonoC haboveC =>
      obtain ⟨ext1, hst1, wf1, chne1, chk1, hprev1, haddr1, hups1, helems1⟩ :=
        absorbAll_spec K hK carry store lvl e wf hcarry chk
          (optLt_mono hprev (le_refl _)) haddr chne
      set eA := (absorbAll K store lvl e carry).2.1 with heA
      set ups := (absorbAll K store lvl e carry).2.2 with hups
      have hne : eA.children.isEmpty = false := by
        simpa using chne1
      set S1 := store ++ ext1 with hS1
      set A1 := S1.length with hA1
      set pg2 := Page.node lvl eA.prev eA.children with hpg2
      set store2 := S1 ++ [pg2] with hstore2
      set carry2 := ups ++ [refOfChildren A1 eA.children] with hcarry2
      have wf2 : WfStore store2 := wf_append wf1 ⟨hprev1, haddr1, chne1⟩
      have hlen2 : store2.length = A1 + 1 := by rw [hstore2]; simp
      have hne' : (absorbAll K store lvl e carry).2.1.children.isEmpty = false := by
        simpa using chne1
      have hred : closeNodes K store lvl (e :: rest) carry
          = ((closeNodes K store2 (lvl + 1) rest carry2).1,
             none :: (closeNodes K store2 (lvl + 1) rest carry2).2) := by
        simp only [closeNodes, hne', Bool.false_eq_true, if_false]
        rw [hst1]
      have hstack2 : StackOK K store2 store2.length (lvl + 1) e.prev rest := by
        have h1 : StackOK K (store ++ (ext1 ++ [pg2])) store.length (lvl + 1)
            e.prev rest := by
          refine StackOK_ext wf (ext1 ++ [pg2]) ?_ (le_refl _)
            (optLt_mono hprev (le_refl _)) hrest
          have : store ++ (ext1 ++ [pg2]) = store2 := by
            rw [hstore2, hS1]
            simp
          rw [this]
          exact wf2
        have heq : store ++ (ext1 ++ [pg2]) = store2 := by
          rw [hstore2, hS1]
          simp
        rw [heq] at h1
        exact StackOK_mono_bnd (by rw [hstore2, hS1]; simp) h1
      obtain ⟨ext3, A, k, heq3, wf3, hA3, helems3⟩ :=
        ih store2 (lvl + 1) carry2 e.prev wf2 (by simp [hcarry2])
          (by
            intro r' hr'
            rw [hcarry2] at hr'
            rcases List.mem_append.mp hr' with hm | hm
            · have hlt := hups1 r' hm
              have hq := hlen2
              omega
            · rcases List.mem_singleton.mp hm with rfl
              show A1 < store2.length
              have hq := hlen2
              omega)
          hstack2
      rw [hred, heq3]
      refine ⟨ext1 ++ [pg2] ++ ext3, A, k + 1, ?_, ?_, ?_, ?_⟩
      · have heq : store2 ++ ext3 = store ++ (ext1 ++ [pg2] ++ ext3) := by
          rw [hstore2, hS1]
          simp
        rw [heq]
        rw [List.replicate_succ]
        rfl
      · have heq : store ++ (ext1 ++ [pg2] ++ ext3) = store2 ++ ext3 := by
          rw [hstore2, hS1]
          simp
        rw [heq]
        exact wf3
      · have heq : store ++ (ext1 ++ [pg2] ++ ext3) = store2 ++ ext3 := by
          rw [hstore2, hS1]
          simp
        rw [heq]
        exact hA3
      · have heq : store ++ (ext1 ++ [pg2] ++ ext3) = store2 ++ ext3 := by
          rw [hstore2, hS1]
          simp
        rw [heq, helems3]
        -- rewrite the recursive carry's elements
        have hcarry2elems : childElems store2 store2.length carry2
            = childElems store store.length e.children
              ++ childElems store store.length carry := by
          rw [hcarry2]
          have hsplit : childElems store2 store2.length
              (ups ++ [refOfChildren A1 eA.children])
            = childElems store2 store2.length ups
              ++ subtreeElems store2 store2.length A1 := by
            simp only [childElems, List.flatMap_append, List.flatMap_cons,
              List.flatMap_nil, List.append_nil]
            rfl
          rw [hsplit]
          have h1 : childElems store2 store2.length ups
              = childElems S1 S1.length ups := by
            rw [hstore2]
            exact childElems_ext_stab wf1 [pg2] hups1 store2.length
              (fun r' hr' => by
                have := hups1 r' hr'
                rw [hstore2]
                simp only [List.length_append, List.length_cons, List.length_nil]
                omega)
          have h2 : subtreeElems store2 store2.length A1
              = childElems S1 S1.length eA.children := by
            show subtreeElems (S1 ++ [pg2]) (S1 ++ [pg2]).length A1
              = childElems S1 S1.length eA.children
            have := subtree_snoc_node wf1 lvl eA.prev eA.children [] haddr1
            rw [List.append_nil] at this
            exact this
          rw [h1, h2]
          exact helems1
        rw [hcarry2elems]
        have hcN : collectN store2 rest = collectN store rest := by
          have heq2 : store2 = store ++ (ext1 ++ [pg2]) := by
            rw [hstore2, hS1]
            simp
          rw [heq2]
          refine collectN_ext_stab wf (ext1 ++ [pg2]) ?_
          intro e' he' r' hr'
          have := StackOK_addrLt hrest e' he' r' hr'
          exact this
        rw [hcN, collectN_cons]
        simp [List.append_assoc]

end NBT

namespace NBT

theorem search_full {xl : ExtentsList} {N : Nat} (h : collect xl = pairs N) :
    search xl 0 N = pairs N := by
  cases N with
  | zero =>
    rw [search, if_neg (Nat.lt_irrefl 0), h]
    rfl
  | succ n =>
    rw [search, if_pos (Nat.succ_pos n), h,
      pairs_filter_fwd 0 (n + 1) (n + 1) (by omega) (le_refl _)]
    simp [pairs]

/-- `close()` commits everything under a single root: the store only grows,
the roots vector has the closed shape, and the root's subtree holds exactly
the previously visible data. -/
theorem close_spec (cap K : Nat) (hK : 1 ≤ K)
    (xl : ExtentsList) (le : LeafExtent) (hInv : Inv cap K xl)
    (hle : xl.leafE = some le) :
    ∃ ext A k,
      close K xl = (xl.store ++ ext, List.replicate k none ++ [some A]) ∧
      WfStore (xl.store ++ ext) ∧
      A < (xl.store ++ ext).length ∧
      subtreeElems (xl.store ++ ext) (xl.store ++ ext).length A = collect xl := by
  have hpgOK : PageOK (Page.leaf le.prev le.buf) xl.store.length := by
    show OptLt le.prev xl.store.length ∧ le.buf ≠ []
    exact ⟨hInv.leafPrev le hle, hInv.bufNE le hle⟩
  have wf1 : WfStore (xl.store ++ [Page.leaf le.prev le.buf]) :=
    wf_append hInv.wf hpgOK
  have hstack1 : StackOK K (xl.store ++ [Page.leaf le.prev le.buf])
      (xl.store ++ [Page.leaf le.prev le.buf]).length 1 le.prev xl.nodes :=
    StackOK_mono_bnd (by simp)
      (StackOK_ext hInv.wf [Page.leaf le.prev le.buf] wf1 (le_refl _)
        (hInv.leafPrev le hle) (hInv.stack le hle))
  obtain ⟨ext2, A, k, heq2, wf2, hA2, helems2⟩ :=
    closeNodes_spec K hK xl.nodes (xl.store ++ [Page.leaf le.prev le.buf]) 1
      [refOfData xl.store.length le.buf] le.prev wf1 (by simp)
      (fun r hr => by
        rcases List.mem_singleton.mp hr with rfl
        show xl.store.length < (xl.store ++ [Page.leaf le.prev le.buf]).length
        simp) hstack1
  have hassoc : xl.store ++ ([Page.leaf le.prev le.buf] ++ ext2)
      = (xl.store ++ [Page.leaf le.prev le.buf]) ++ ext2 := by
    simp
  refine ⟨[Page.leaf le.prev le.buf] ++ ext2, A, k + 1, ?_, ?_, ?_, ?_⟩
  · show close K xl = _
    simp only [close, hle]
    rw [heq2]
    simp [List.replicate_succ, List.append_assoc]
  · rw [hassoc]
    exact wf2
  · rw [hassoc]
    exact hA2
  · rw [hassoc, helems2]
    have hleaf : childElems (xl.store ++ [Page.leaf le.prev le.buf])
        (xl.store ++ [Page.leaf le.prev le.buf]).length
        [refOfData xl.store.length le.buf] = le.buf := by
      show subtreeElems (xl.store ++ [Page.leaf le.prev le.buf])
          (xl.store ++ [Page.leaf le.prev le.buf]).length
          (refOfData xl.store.length le.buf).addr ++ [] = le.buf
      rw [List.append_nil]
      show subtreeElems (xl.store ++ [Page.leaf le.prev le.buf])
          (xl.store ++ [Page.leaf le.prev le.buf]).length xl.store.length = le.buf
      have := @subtree_snoc_leaf xl.store le.prev le.buf []
      rw [List.append_nil] at this
      exact this
    have hcN : collectN (xl.store ++ [Page.leaf le.prev le.buf]) xl.nodes
        = collectN xl.store xl.nodes :=
      collectN_ext_stab hInv.wf [Page.leaf le.prev le.buf]
        (StackOK_addrLt (hInv.stack le hle))
    have hcoll : collect xl = collectN xl.store xl.nodes ++ le.buf := by
      simp only [collect, collectN, hle]
    rw [hleaf, hcN, hcoll]

/-- A roots vector of the closed shape carries status `OK`. -/
theorem repair_status_closed (k A : Nat) :
    repair_status (List.replicate k (none : Option Nat) ++ [some A])
      = RepairStatus.OK := by
  have h1 : (List.replicate k (none : Option Nat) ++ [some A]).getLast?
      = some (some A) := by
    simp
  have h2 : (List.replicate k (none : Option Nat) ++ [some A]).dropLast
      = List.replicate k (none : Option Nat) := by
    simp [List.dropLast_concat]
  have h3 : (List.replicate k (none : Option Nat)).all
      (fun o => o = none) = true := by
    simp [List.all_eq_true]
  simp only [repair_status, h1, h2, h3, if_true]

/-- Reopening from a closed roots vector exposes exactly the root's subtree. -/
theorem reopen_ok_collect (store : List Page) (k A : Nat) :
    collect (reopen store (List.replicate k (none : Option Nat) ++ [some A]))
      = subtreeElems store store.length A := by
  have h1 := repair_status_closed k A
  have h2 : (List.replicate k (none : Option Nat) ++ [some A]).getLast?
      = some (some A) := by
    simp
  simp only [reopen, h1, h2]
  simp [collect, childElems, pageRefAt_addr]

end NBT

namespace NBT

theorem pairs_length (n : Nat) : (pairs n).length = n := by
  simp [pairs]

theorem append_leafE (cap K : Nat) (xl : ExtentsList) (t : Ts) (v : Val) :
    ∃ le, (append cap K xl t v).1.leafE = some le := by
  cases hle : xl.leafE with
  | none =>
    refine ⟨⟨none, [(t, v)]⟩, ?_⟩
    simp [append, hle]
  | some le =>
    by_cases h : le.buf.length < cap
    · refine ⟨⟨le.prev, le.buf ++ [(t, v)]⟩, ?_⟩
      simp [append, hle, h]
    · refine ⟨⟨some xl.store.length, [(t, v)]⟩, ?_⟩
      simp [append, hle, h]

theorem appendRun_leafE_some (cap K N : Nat) (hN : 1 ≤ N) :
    ∃ le, (appendRun cap K N).leafE = some le := by
  cases N with
  | zero => omega
  | succ n =>
    show ∃ le, (append cap K (appendRun cap K n) n (n : Int)).1.leafE = some le
    exact append_leafE cap K (appendRun cap K n) n (n : Int)

theorem pushRef_ne_nil (K : Nat) (store : List Page) (lvl : Nat)
    (ns : List NodeExtent) (r : Ref) : (pushRef K store lvl ns r).2 ≠ [] := by
  cases ns with
  | nil => simp [pushRef]
  | cons e rest =>
    by_cases h : e.children.length < K
    · simp [pushRef, h]
    · simp [pushRef, h]

theorem append_nodes_ne_nil (cap K : Nat) (xl : ExtentsList) (t : Ts) (v : Val)
    (h : xl.nodes ≠ []) : (append cap K xl t v).1.nodes ≠ [] := by
  cases hle : xl.leafE with
  | none =>
    simp only [append, hle]
    exact h
  | some le =>
    by_cases hb : le.buf.length < cap
    · simp only [append, hle, if_pos hb]
      exact h
    · simp only [append, hle, if_neg hb]
      exact pushRef_ne_nil K _ 1 xl.nodes _

theorem appendRun_nodes_ne_nil (cap K : Nat) (hcap : 1 ≤ cap) (hK : 1 ≤ K) :
    ∀ N, cap < N → (appendRun cap K N).nodes ≠ [] := by
  intro N
  induction N with
  | zero => intro h; omega
  | succ n ih =>
    intro hlt
    by_cases hn : cap < n
    · exact append_nodes_ne_nil cap K _ n (n : Int) (ih hn)
    · have hncap : n = cap := by omega
      subst hncap
      obtain ⟨le, hle⟩ := appendRun_leafE_some n K n hcap
      by_cases hnodes : (appendRun n K n).nodes = []
      · have hcoll := appendRun_collect n K hcap hK n
        have hthis : collect (appendRun n K n) = le.buf := by
          have h0 : collect (appendRun n K n)
              = collectN (appendRun n K n).store (appendRun n K n).nodes
                ++ le.buf := by
            simp only [collect, collectN, hle]
          rw [hnodes] at h0
          simpa [collectN] using h0
        have hbuf : le.buf = pairs n := by
          rw [← hthis, hcoll]
        have hfull : ¬ le.buf.length < n := by
          rw [hbuf, pairs_length]
          omega
        show (append n K (appendRun n K n) n (n : Int)).1.nodes ≠ []
        simp only [append, hle, if_neg hfull]
        exact pushRef_ne_nil K _ 1 _ _
      · exact append_nodes_ne_nil n K _ n (n : Int) hnodes

/-- While the whole run fits into one leaf buffer, nothing is ever
committed: the store stays empty and only the volatile buffer holds data. -/
theorem appendRun_small (cap K : Nat) :
    ∀ N, 1 ≤ N → N ≤ cap →
      appendRun cap K N = ⟨[], some ⟨none, pairs N⟩, []⟩ := by
  intro N
  induction N with
  | zero => intro h _; omega
  | succ n ih =>
    intro _ hcap
    show (append cap K (appendRun cap K n) n (n : Int)).1 = _
    by_cases hn0 : n = 0
    · subst hn0
      have hp : pairs 1 = [((0 : Ts), (0 : Int))] := rfl
      rw [hp]
      rfl
    · rw [ih (by omega) (by omega)]
      have hlen : (pairs n).length < cap := by
        rw [pairs_length]
        omega
      simp [append, hlen, pairs_succ]

theorem collectN_ne_nil {K : Nat} {store : List Page} {bnd b : Nat}
    {tip : Option Nat} {e : NodeExtent} {rest : List NodeExtent}
    (h : StackOK K store bnd b tip (e :: rest)) :
    collectN store (e :: rest) ≠ [] := by
  cases h with
  | cons _ _ _ _ chne chk hprev haddr hpref hsub hacc hchn hlink hrest hmono habove =>
    have hch : childElems store store.length e.children ≠ [] :=
      flatMap_ne_nil e.children _ chne (fun r hr =>
        checkSubtree_nonempty store.length (b - 1) r.addr (hsub r hr))
    show ((e :: rest).reverse.flatMap fun e' =>
      childElems store store.length e'.children) ≠ []
    rw [List.reverse_cons, List.flatMap_append]
    intro hc
    rcases List.append_eq_nil.mp hc with ⟨h1, h2⟩
    simp only [List.flatMap_cons, List.flatMap_nil, List.append_nil] at h2
    exact hch h2

/-- A roots vector captured mid-stream (the leaf extent exists) always ends
in `EMPTY_ADDR` — the top extent's open node was never committed — so it
carries status `REPAIR`. -/
theorem midstream_repair (cap K : Nat) {xl : ExtentsList} (hInv : Inv cap K xl)
    {le : LeafExtent} (hle : xl.leafE = some le) :
    repair_status (get_roots xl) = RepairStatus.REPAIR := by
  have hroots : get_roots xl = le.prev :: xl.nodes.map NodeExtent.prev := by
    simp only [get_roots, hle]
  have hlast : (get_roots xl).getLast? = some none := by
    rw [hroots]
    cases hn : xl.nodes with
    | nil =>
      have hstack := hInv.stack le hle
      rw [hn] at hstack
      have hprev : le.prev = none := StackOK_nil_tip hstack
      rw [hprev]
      rfl
    | cons e0 l0 =>
      have hne : e0 :: l0 ≠ [] := by simp
      have hstack := hInv.stack le hle
      rw [hn] at hstack
      have hprev : (List.getLast (e0 :: l0) hne).prev = none :=
        StackOK_getLast_prev hstack _ (List.getLast?_eq_getLast _ hne)
      have hmap : ((e0 :: l0).map NodeExtent.prev).getLast? = some none := by
        rw [List.getLast?_map, List.getLast?_eq_getLast _ hne]
        simp [hprev]
      show (le.prev :: (e0 :: l0).map NodeExtent.prev).getLast? = some none
      rw [show (e0 :: l0).map NodeExtent.prev
          = e0.prev :: l0.map NodeExtent.prev from rfl]
      rw [List.getLast?_cons_cons]
      rw [← show (e0 :: l0).map NodeExtent.prev
          = e0.prev :: l0.map NodeExtent.prev from rfl]
      exact hmap
  simp only [repair_status, hlast]

/-- The recovery procedure rebuilds exactly the open extents that were live
at the moment the roots vector was captured, plus one empty top extent. -/
theorem rebuild_stack (K : Nat) {store : List Page} {bnd : Nat} :
    ∀ (ns : List NodeExtent) (b : Nat) (tip : Option Nat),
      StackOK K store bnd b tip ns →
      (List.range (ns.length + 1)).map (fun i =>
        (⟨(tip :: ns.map NodeExtent.prev).getD (i + 1) none,
          rebuildChildren store ((tip :: ns.map NodeExtent.prev).getD i none)
            ((tip :: ns.map NodeExtent.prev).getD (i + 1) none)⟩ : NodeExtent))
        = ns ++ [⟨none, []⟩] := by
  intro ns
  induction ns with
  | nil =>
    intro b tip h
    have htip : tip = none := StackOK_nil_tip h
    subst htip
    show [(⟨none, rebuildChildren store none none⟩ : NodeExtent)] = [⟨none, []⟩]
    simp [rebuildChildren, chainUntil_none]
  | cons e rest ih =>
    intro b tip h
    cases h with
    | cons _ _ _ _ chne chk hprev haddr hpref hsub hacc hchn hlink hrest hmono habove =>
      rw [List.range_succ_eq_map, List.map_cons, List.map_map]
      have hchildren : rebuildChildren store tip e.prev = e.children := by
        show ((chainUntil store store.length tip (stopAddr store e.prev)).map
          (pageRefAt store)).reverse = e.children
        rw [hlink, List.map_reverse, List.reverse_reverse, List.map_map]
        refine Eq.trans (List.map_congr_left fun r hr => hpref r hr) ?_
        exact List.map_id _
      congr 1
      · show (⟨e.prev, rebuildChildren store tip e.prev⟩ : NodeExtent) = e
        rw [hchildren]
      · have h2 := ih (b + 1) e.prev hrest
        exact (List.map_congr_left fun i hi => rfl).trans h2

/-- Reopening from a mid-stream roots snapshot recovers every committed
element: the rebuilt extents expose exactly the data visible under the open
superblock extents at capture time (only the leaf buffer is lost). -/
theorem reopen_midstream_collect (cap K : Nat) {xl : ExtentsList}
    (hInv : Inv cap K xl) {le : LeafExtent} (hle : xl.leafE = some le) :
    collect (reopen xl.store (get_roots xl)) = collectN xl.store xl.nodes := by
  have hrep := midstream_repair cap K hInv hle
  have hroots : get_roots xl = le.prev :: xl.nodes.map NodeExtent.prev := by
    simp only [get_roots, hle]
  have hlen : (get_roots xl).length = xl.nodes.length + 1 := by
    rw [hroots]
    simp
  have hfun : (List.range ((get_roots xl).length)).map (fun i =>
      (⟨(get_roots xl).getD (i + 1) none,
        rebuildChildren xl.store ((get_roots xl).getD i none)
          ((get_roots xl).getD (i + 1) none)⟩ : NodeExtent))
      = xl.nodes ++ [⟨none, []⟩] := by
    rw [hlen]
    have hrs := rebuild_stack K xl.nodes 1 le.prev (hInv.stack le hle)
    refine Eq.trans (List.map_congr_left fun i hi => ?_) hrs
    rw [hroots]
  simp only [reopen, hrep]
  simp only [collect]
  rw [hfun, List.reverse_append]
  simp [collectN, childElems]

end NBT

namespace NBT

/-- C1: after appending the pairs `(i, i)` for `i ∈ [0, N)` into a fresh
list, a forward `search(a, b)` with `a < b ≤ N` yields exactly
`(a,a), (a+1,a+1), …, (b−1,b−1)` in ascending order, and a backward
`search(a, b)` with `b < a < N` yields exactly
`(a,a), (a−1,a−1), …, (b+1,b+1)` in descending order — half-open in the
scan direction. -/
theorem claim_C1 (cap K N a b : Nat) (hcap : 1 ≤ cap) (hK : 1 ≤ K) :
    (a < b → b ≤ N → search (appendRun cap K N) a b
      = (List.range (b - a)).map
          (fun i => ((a + i : Nat), ((a + i : Nat) : Int)))) ∧
    (b < a → a < N → search (appendRun cap K N) a b
      = (List.range (a - b)).map
          (fun i => ((a - i : Nat), ((a - i : Nat) : Int)))) := by
  constructor
  · intro h1 h2
    exact search_appendRun_fwd cap K N a b hcap hK h1 h2
  · intro h1 h2
    exact search_appendRun_bwd cap K N a b hcap hK h1 h2

theorem claim_C1_witness :
    search (appendRun 2 2 5) 1 4
      = (List.range 3).map (fun i => ((1 + i : Nat), ((1 + i : Nat) : Int))) ∧
    search (appendRun 2 2 5) 4 1
      = (List.range 3).map (fun i => ((4 - i : Nat), ((4 - i : Nat) : Int))) :=
  ⟨(claim_C1 2 2 5 1 4 (by decide) (by decide)).1 (by decide) (by decide),
   (claim_C1 2 2 5 4 1 (by decide) (by decide)).2 (by decide) (by decide)⟩

/-- C2: appending `(i, i)` for `i ∈ [0, N)`, closing, and reopening from the
returned roots exposes exactly the appended sequence: the returned roots
carry status `OK`, the reopened list's visible data is the full sequence, a
full-range search returns it in order, and a single big read drains it with
status `OK`. -/
theorem claim_C2 (cap K N : Nat) (hcap : 1 ≤ cap) (hK : 1 ≤ K) :
    repair_status (close K (appendRun cap K N)).2 = RepairStatus.OK ∧
    collect (reopen (close K (appendRun cap K N)).1
      (close K (appendRun cap K N)).2) = pairs N ∧
    search (reopen (close K (appendRun cap K N)).1
      (close K (appendRun cap K N)).2) 0 N = pairs N ∧
    (read (search (reopen (close K (appendRun cap K N)).1
      (close K (appendRun cap K N)).2) 0 N) N).status = St.OK ∧
    (read (search (reopen (close K (appendRun cap K N)).1
      (close K (appendRun cap K N)).2) 0 N) N).n = N ∧
    (read (search (reopen (close K (appendRun cap K N)).1
      (close K (appendRun cap K N)).2) 0 N) N).out = pairs N ∧
    (read (search (reopen (close K (appendRun cap K N)).1
      (close K (appendRun cap K N)).2) 0 N) N).rest = [] := by
  cases N with
  | zero => exact ⟨rfl, rfl, rfl, rfl, rfl, rfl, rfl⟩
  | succ n =>
    obtain ⟨le, hle⟩ := appendRun_leafE_some cap K (n + 1) (by omega)
    have hInv := appendRun_inv cap K hcap hK (n + 1)
    obtain ⟨ext, A, k, heq, wf2, hA, helems⟩ := close_spec cap K hK _ le hInv hle
    have hcoll := appendRun_collect cap K hcap hK (n + 1)
    have hcollre : collect (reopen (close K (appendRun cap K (n + 1))).1
        (close K (appendRun cap K (n + 1))).2) = pairs (n + 1) := by
      rw [heq]
      show collect (reopen ((appendRun cap K (n + 1)).store ++ ext)
        (List.replicate k none ++ [some A])) = pairs (n + 1)
      rw [reopen_ok_collect, helems, hcoll]
    have hsearch : search (reopen (close K (appendRun cap K (n + 1))).1
        (close K (appendRun cap K (n + 1))).2) 0 (n + 1) = pairs (n + 1) :=
      search_full hcollre
    have hok : repair_status (close K (appendRun cap K (n + 1))).2
        = RepairStatus.OK := by
      rw [heq]
      exact repair_status_closed k A
    refine ⟨hok, hcollre, hsearch, ?_, ?_, ?_, ?_⟩
    · rw [hsearch]
      show (if n + 1 ≤ (pairs (n + 1)).length then St.OK else St.NO_DATA) = St.OK
      rw [pairs_length, if_pos (le_refl _)]
    · rw [hsearch]
      show min (n + 1) (pairs (n + 1)).length = n + 1
      rw [pairs_length, Nat.min_self]
    · rw [hsearch]
      show (pairs (n + 1)).take (n + 1) = pairs (n + 1)
      exact List.take_of_length_le (by rw [pairs_length])
    · rw [hsearch]
      show (pairs (n + 1)).drop (n + 1) = []
      exact List.drop_eq_nil_of_le (by rw [pairs_length])

theorem claim_C2_witness :
    repair_status (close 2 (appendRun 2 2 3)).2 = RepairStatus.OK ∧
    collect (reopen (close 2 (appendRun 2 2 3)).1
      (close 2 (appendRun 2 2 3)).2) = pairs 3 ∧
    search (reopen (close 2 (appendRun 2 2 3)).1
      (close 2 (appendRun 2 2 3)).2) 0 3 = pairs 3 ∧
    (read (search (reopen (close 2 (appendRun 2 2 3)).1
      (close 2 (appendRun 2 2 3)).2) 0 3) 3).status = St.OK ∧
    (read (search (reopen (close 2 (appendRun 2 2 3)).1
      (close 2 (appendRun 2 2 3)).2) 0 3) 3).n = 3 ∧
    (read (search (reopen (close 2 (appendRun 2 2 3)).1
      (close 2 (appendRun 2 2 3)).2) 0 3) 3).out = pairs 3 ∧
    (read (search (reopen (close 2 (appendRun 2 2 3)).1
      (close 2 (appendRun 2 2 3)).2) 0 3) 3).rest = [] :=
  claim_C2 2 2 3 (by decide) (by decide)

/-- C3: abandoning a list after `N ≥ 1` appends and reopening from the
`get_roots()` snapshot yields a contiguous prefix of the appended data
starting at the first element: the recovered scan equals `take sz` of the
workload with `sz ≤ N`; `sz < N` because an uncommitted leaf buffer always
existed at abandonment, and `sz > 0` whenever a commit had occurred
(`cap < N`). -/
theorem claim_C3 (cap K N : Nat) (hcap : 1 ≤ cap) (hK : 1 ≤ K) (hN : 1 ≤ N) :
    ∃ sz,
      collect (reopen (appendRun cap K N).store (get_roots (appendRun cap K N)))
        = (pairs N).take sz ∧
      sz ≤ N ∧ sz < N ∧ (cap < N → 0 < sz) := by
  obtain ⟨le, hle⟩ := appendRun_leafE_some cap K N hN
  have hInv := appendRun_inv cap K hcap hK N
  have hre := reopen_midstream_collect cap K hInv hle
  have hsplit : collectN (appendRun cap K N).store (appendRun cap K N).nodes
      ++ le.buf = pairs N := by
    have h0 : collect (appendRun cap K N)
        = collectN (appendRun cap K N).store (appendRun cap K N).nodes
          ++ le.buf := by
      simp only [collect, collectN, hle]
    rw [← h0]
    exact appendRun_collect cap K hcap hK N
  have hlen := congrArg List.length hsplit
  rw [List.length_append, pairs_length] at hlen
  refine ⟨(collectN (appendRun cap K N).store (appendRun cap K N).nodes).length,
    ?_, by omega, ?_, ?_⟩
  · rw [hre, ← hsplit, List.take_left]
  · have hbne := hInv.bufNE le hle
    have hbpos : 0 < le.buf.length := List.length_pos.mpr hbne
    omega
  · intro hcapN
    have hnn := appendRun_nodes_ne_nil cap K hcap hK N hcapN
    cases hns : (appendRun cap K N).nodes with
    | nil => exact absurd hns hnn
    | cons e rest =>
      have hstack := hInv.stack le hle
      rw [hns] at hstack
      exact List.length_pos.mpr (collectN_ne_nil hstack)

theorem claim_C3_witness :
    ∃ sz,
      collect (reopen (appendRun 2 2 5).store (get_roots (appendRun 2 2 5)))
        = (pairs 5).take sz ∧
      sz ≤ 5 ∧ sz < 5 ∧ (2 < 5 → 0 < sz) :=
  claim_C3 2 2 5 (by decide) (by decide) (by decide)

/-- C4: `repair_status` of the roots vector returned by `close()` is `OK`,
while `repair_status` of a vector captured mid-stream via `get_roots()`
after a commit (`cap < N` forces one) but before any `close()` is
`REPAIR`. -/
theorem claim_C4 (cap K N : Nat) (hcap : 1 ≤ cap) (hK : 1 ≤ K) (hN : cap < N) :
    repair_status (close K (appendRun cap K N)).2 = RepairStatus.OK ∧
    repair_status (get_roots (appendRun cap K N)) = RepairStatus.REPAIR := by
  obtain ⟨le, hle⟩ := appendRun_leafE_some cap K N (by omega)
  have hInv := appendRun_inv cap K hcap hK N
  obtain ⟨ext, A, k, heq, hwf, hAlt, hsub⟩ := close_spec cap K hK _ le hInv hle
  constructor
  · rw [heq]
    exact repair_status_closed k A
  · exact midstream_repair cap K hInv hle

theorem claim_C4_witness :
    repair_status (close 2 (appendRun 1 2 3)).2 = RepairStatus.OK ∧
    repair_status (get_roots (appendRun 1 2 3)) = RepairStatus.REPAIR :=
  claim_C4 1 2 3 (by decide) (by decide) (by decide)

/-- C5: repeatedly reading with any positive chunk size until exhaustion
concatenates to the same sequence as one read with a buffer large enough for
the whole result. -/
theorem claim_C5 (cap K N a b c : Nat) (hcap : 1 ≤ cap) (hK : 1 ≤ K)
    (hc : 1 ≤ c) :
    chunkedRead (search (appendRun cap K N) a b) c
      = (read (search (appendRun cap K N) a b)
          (search (appendRun cap K N) a b).length).out := by
  rw [chunkedRead_eq c hc]
  show search (appendRun cap K N) a b
    = (search (appendRun cap K N) a b).take
        (search (appendRun cap K N) a b).length
  rw [List.take_length]

theorem claim_C5_witness :
    chunkedRead (search (appendRun 2 2 5) 1 4) 2
      = (read (search (appendRun 2 2 5) 1 4)
          (search (appendRun 2 2 5) 1 4).length).out :=
  claim_C5 2 2 5 1 4 2 (by decide) (by decide) (by decide)

end NBT

namespace NBT

/-- C6 (corrected): `append` returns true exactly on the calls during which
a commit occurred — a true return surfaces the freshly committed leaf's
address in `get_roots()` and adds one committed leaf page, a false return
leaves the store untouched — but across a full run the number of true
returns equals the number of committed LEAF pages, not the total number of
committed nodes across all levels. -/
theorem claim_C6 (cap K : Nat) (hcap : 1 ≤ cap) (hK : 1 ≤ K) (N n : Nat) :
    trueCount cap K N = leafCount (appendRun cap K N).store ∧
    ((append cap K (appendRun cap K n) n (n : Int)).2 = true →
      some (appendRun cap K n).store.length
        ∈ get_roots (appendRun cap K (n + 1)) ∧
      leafCount (appendRun cap K (n + 1)).store
        = leafCount (appendRun cap K n).store + 1) ∧
    ((append cap K (appendRun cap K n) n (n : Int)).2 = false →
      (appendRun cap K (n + 1)).store = (appendRun cap K n).store) := by
  refine ⟨?_, ?_, ?_⟩
  · induction N with
    | zero => rfl
    | succ m ih =>
      have hstep := append_spec cap K hcap hK (appendRun cap K m) m (m : Int)
        (appendRun_inv cap K hcap hK m) (appendRun_ts_lt cap K hcap hK m)
      show trueCount cap K m
          + (if (append cap K (appendRun cap K m) m (m : Int)).2 then 1 else 0)
        = leafCount (append cap K (appendRun cap K m) m (m : Int)).1.store
      cases hb : (append cap K (appendRun cap K m) m (m : Int)).2 with
      | true =>
        have hlc := (hstep.2.2.1 hb).2
        show trueCount cap K m + 1
          = leafCount (append cap K (appendRun cap K m) m (m : Int)).1.store
        rw [ih]
        exact hlc.symm
      | false =>
        have hs := (hstep.2.2.2 hb).2
        show trueCount cap K m + 0
          = leafCount (append cap K (appendRun cap K m) m (m : Int)).1.store
        rw [Nat.add_zero, ih, hs]
  · intro hb
    have hstep := append_spec cap K hcap hK (appendRun cap K n) n (n : Int)
      (appendRun_inv cap K hcap hK n) (appendRun_ts_lt cap K hcap hK n)
    exact hstep.2.2.1 hb
  · intro hb
    have hstep := append_spec cap K hcap hK (appendRun cap K n) n (n : Int)
      (appendRun_inv cap K hcap hK n) (appendRun_ts_lt cap K hcap hK n)
    exact (hstep.2.2.2 hb).2

theorem claim_C6_witness :
    trueCount 2 2 4 = leafCount (appendRun 2 2 4).store ∧
    (some (appendRun 2 2 2).store.length ∈ get_roots (appendRun 2 2 3) ∧
      leafCount (appendRun 2 2 3).store = leafCount (appendRun 2 2 2).store + 1) ∧
    (appendRun 2 2 2).store = (appendRun 2 2 1).store :=
  ⟨(claim_C6 2 2 (by decide) (by decide) 4 2).1,
   (claim_C6 2 2 (by decide) (by decide) 4 2).2.1 (by decide),
   (claim_C6 2 2 (by decide) (by decide) 4 1).2.2 (by decide)⟩

/-- C6 counterexample: with one-element leaves and fan-out 2, four appends
commit three leaves and one level-1 superblock: `append` returned true 3
times but 4 nodes were committed across all levels, refuting the claimed
equality with the total committed-node count. -/
theorem claim_C6_counterexample :
    ¬ (trueCount 1 2 4 = (appendRun 1 2 4).store.length) := by
  decide

/-- C7: for a positive read capacity the scan-iterator read contract holds:
never `OK` with zero elements written; `OK` exactly when the buffer was
filled (`n = max`) with enough data, including an exact fill; `NO_DATA` only
with a partial fill `n ≤ max` and an exhausted iterator; and after an exact
fill the next read returns `NO_DATA` with nothing written. -/
theorem claim_C7 (it : List (Ts × Val)) (m : Nat) (hm : 1 ≤ m) :
    ¬((read it m).status = St.OK ∧ (read it m).n = 0) ∧
    ((read it m).status = St.OK ↔ (read it m).n = m ∧ m ≤ it.length) ∧
    ((read it m).status = St.NO_DATA →
      (read it m).n ≤ m ∧ (read it m).rest = []) ∧
    (m = it.length →
      (read it m).status = St.OK ∧
      read (read it m).rest m = ⟨St.NO_DATA, 0, [], []⟩) := by
  have hn : (read it m).n = min m it.length := rfl
  have hrest : (read it m).rest = it.drop m := rfl
  by_cases h : m ≤ it.length
  · have hst : (read it m).status = St.OK := by
      simp [read, h]
    refine ⟨?_, ?_, ?_, ?_⟩
    · rintro ⟨h1, h2⟩
      rw [hn] at h2
      omega
    · constructor
      · intro h1
        refine ⟨?_, h⟩
        rw [hn]
        omega
      · intro h1
        exact hst
    · intro hnd
      rw [hst] at hnd
      cases hnd
    · intro hlen
      refine ⟨hst, ?_⟩
      have hdrop : it.drop m = [] := by
        rw [hlen]
        exact List.drop_length it
      rw [hrest, hdrop]
      have hns : ¬ (m ≤ ([] : List (Ts × Val)).length) := by
        simp
        omega
      show read [] m = _
      simp [read, hns]
      omega
  · have hst : (read it m).status = St.NO_DATA := by
      simp [read, h]
    refine ⟨?_, ?_, ?_, ?_⟩
    · rintro ⟨h1, h2⟩
      rw [hst] at h1
      cases h1
    · constructor
      · intro h1
        rw [hst] at h1
        cases h1
      · rintro ⟨h1, h2⟩
        exact absurd h2 h
    · intro hnd
      refine ⟨?_, ?_⟩
      · rw [hn]
        omega
      · rw [hrest]
        exact List.drop_eq_nil_of_le (by omega)
    · intro hlen
      exact absurd (le_of_eq hlen) h

theorem claim_C7_witness :
    ¬((read (pairs 2) 2).status = St.OK ∧ (read (pairs 2) 2).n = 0) ∧
    ((read (pairs 2) 2).status = St.OK ↔
      (read (pairs 2) 2).n = 2 ∧ 2 ≤ (pairs 2).length) ∧
    ((read (pairs 2) 2).status = St.NO_DATA →
      (read (pairs 2) 2).n ≤ 2 ∧ (read (pairs 2) 2).rest = []) ∧
    (2 = (pairs 2).length →
      (read (pairs 2) 2).status = St.OK ∧
      read (read (pairs 2) 2).rest 2 = ⟨St.NO_DATA, 0, [], []⟩) :=
  claim_C7 (pairs 2) 2 (by decide)

theorem reopen_store (store : List Page) (roots : List (Option Nat)) :
    (reopen store roots).store = store := by
  cases hrs : repair_status roots with
  | OK =>
    cases hlast : roots.getLast? with
    | none => simp only [reopen, hrs, hlast]
    | some o =>
      cases o with
      | none => simp only [reopen, hrs, hlast]
      | some a => simp only [reopen, hrs, hlast]
  | REPAIR => simp only [reopen, hrs]

/-- The extents installed when reopening from a closed roots vector: a fresh
empty leaf extent and one top extent holding the single root as child. -/
theorem reopen_ok_shape (store : List Page) (k A : Nat) :
    (reopen store (List.replicate k (none : Option Nat) ++ [some A])).leafE
      = some ⟨none, []⟩ ∧
    (reopen store (List.replicate k (none : Option Nat) ++ [some A])).nodes
      = [⟨none, [pageRefAt store A]⟩] := by
  have h1 := repair_status_closed k A
  have h2 : (List.replicate k (none : Option Nat) ++ [some A]).getLast?
      = some (some A) := by
    simp
  simp only [reopen, h1, h2]
  exact ⟨trivial, trivial⟩

/-- The extents rebuilt when reopening from a mid-stream roots snapshot: the
original live extents (with empty leaf buffer) plus one empty top extent. -/
theorem reopen_midstream_shape (cap K : Nat) {xl : ExtentsList}
    (hInv : Inv cap K xl) {le : LeafExtent} (hle : xl.leafE = some le) :
    (reopen xl.store (get_roots xl)).leafE = some ⟨le.prev, []⟩ ∧
    (reopen xl.store (get_roots xl)).nodes = xl.nodes ++ [⟨none, []⟩] := by
  have hrep := midstream_repair cap K hInv hle
  have hroots : get_roots xl = le.prev :: xl.nodes.map NodeExtent.prev := by
    simp only [get_roots, hle]
  have hlen : (get_roots xl).length = xl.nodes.length + 1 := by
    rw [hroots]
    simp
  have hfun : (List.range ((get_roots xl).length)).map (fun i =>
      (⟨(get_roots xl).getD (i + 1) none,
        rebuildChildren xl.store ((get_roots xl).getD i none)
          ((get_roots xl).getD (i + 1) none)⟩ : NodeExtent))
      = xl.nodes ++ [⟨none, []⟩] := by
    rw [hlen]
    have hrs := rebuild_stack K xl.nodes 1 le.prev (hInv.stack le hle)
    refine Eq.trans (List.map_congr_left fun i hi => ?_) hrs
    rw [hroots]
  have hd0 : (get_roots xl).getD 0 none = le.prev := by
    rw [hroots]
    rfl
  constructor
  · simp only [reopen, hrep]
    rw [hd0]
  · simp only [reopen, hrep]
    exact hfun

/-- C8: after any time-ordered run of appends, `check_extent` succeeds on
every materialised level — the leaf level's back-link chain and every
superblock level's chain verify: levels match positions, chains terminate at
`EMPTY_ADDR`, child time-ranges are non-overlapping and increasing, and
every stored aggregate equals the arithmetic over its subtree's elements —
and the same holds for every level of the list reopened after `close()` and
of the list reopened from a mid-stream `get_roots()` snapshot. -/
theorem claim_C8 (cap K : Nat) (hcap : 1 ≤ cap) (hK : 1 ≤ K)
    (l : List (Ts × Val))
    (hl : List.Pairwise (fun p q : Ts × Val => p.1 < q.1) l)
    (le : LeafExtent) (hle : (appendList cap K l).leafE = some le)
    (i : Nat) (hi : i < (appendList cap K l).nodes.length)
    (j : Nat) (hj : j < (reopen (close K (appendList cap K l)).1
      (close K (appendList cap K l)).2).nodes.length)
    (m : Nat) (hm : m < (reopen (appendList cap K l).store
      (get_roots (appendList cap K l))).nodes.length) :
    check_extent (appendList cap K l).store 0 le.prev = true ∧
    check_extent (appendList cap K l).store (1 + i)
      (((appendList cap K l).nodes.getD i ⟨none, []⟩).prev) = true ∧
    check_extent (reopen (close K (appendList cap K l)).1
        (close K (appendList cap K l)).2).store 0
      (((reopen (close K (appendList cap K l)).1
        (close K (appendList cap K l)).2).leafE.getD ⟨none, []⟩).prev) = true ∧
    check_extent (reopen (close K (appendList cap K l)).1
        (close K (appendList cap K l)).2).store (1 + j)
      (((reopen (close K (appendList cap K l)).1
        (close K (appendList cap K l)).2).nodes.getD j ⟨none, []⟩).prev) = true ∧
    check_extent (reopen (appendList cap K l).store
        (get_roots (appendList cap K l))).store 0
      (((reopen (appendList cap K l).store
        (get_roots (appendList cap K l))).leafE.getD ⟨none, []⟩).prev) = true ∧
    check_extent (reopen (appendList cap K l).store
        (get_roots (appendList cap K l))).store (1 + m)
      (((reopen (appendList cap K l).store
        (get_roots (appendList cap K l))).nodes.getD m ⟨none, []⟩).prev)
      = true := by
  have hInv := appendList_inv cap K hcap hK l hl
  obtain ⟨ext, A, k, heq, hwf, hA, hsub⟩ := close_spec cap K hK _ le hInv hle
  have hshape1 := reopen_ok_shape ((appendList cap K l).store ++ ext) k A
  have hshape2 := reopen_midstream_shape cap K hInv hle
  refine ⟨hInv.chk0 le hle, ?_, ?_, ?_, ?_, ?_⟩
  · have hchk := StackOK_chkN (hInv.stack le hle) i hi
    rw [show (appendList cap K l).nodes.getD i ⟨none, []⟩
        = (appendList cap K l).nodes.get ⟨i, hi⟩ from
      List.getD_eq_getElem _ _ hi]
    exact hchk
  · rw [heq]
    rw [hshape1.1]
    show check_extent (reopen ((appendList cap K l).store ++ ext)
      (List.replicate k none ++ [some A])).store 0 none = true
    exact checkChain_none _ _ _
  · rw [heq] at hj ⊢
    rw [hshape1.2] at hj ⊢
    have hj0 : j = 0 := by
      simpa using hj
    subst hj0
    show check_extent (reopen ((appendList cap K l).store ++ ext)
      (List.replicate k none ++ [some A])).store (1 + 0) none = true
    exact checkChain_none _ _ _
  · rw [reopen_store, hshape2.1]
    show check_extent (appendList cap K l).store 0 le.prev = true
    exact hInv.chk0 le hle
  · rw [reopen_store]
    rw [hshape2.2] at hm ⊢
    by_cases hmlt : m < (appendList cap K l).nodes.length
    · have hgd : ((appendList cap K l).nodes
            ++ [(⟨none, []⟩ : NodeExtent)]).getD m ⟨none, []⟩
          = (appendList cap K l).nodes.get ⟨m, hmlt⟩ := by
        rw [List.getD_eq_getElem _ _ (by simp; omega)]
        exact List.getElem_append_left hmlt
      rw [hgd]
      exact StackOK_chkN (hInv.stack le hle) m hmlt
    · have hmlen : m = (appendList cap K l).nodes.length := by
        simp only [List.length_append, List.length_cons, List.length_nil] at hm
        omega
      have hgd : ((appendList cap K l).nodes
            ++ [(⟨none, []⟩ : NodeExtent)]).getD m ⟨none, []⟩
          = (⟨none, []⟩ : NodeExtent) := by
        rw [List.getD_eq_getElem _ _ (by simp; omega)]
        exact List.getElem_concat_length _ _ _ hmlen _
      rw [hgd]
      exact checkChain_none _ _ _

theorem claim_C8_witness :
    check_extent (appendList 1 2 (pairs 3)).store 0
      (⟨some 1, [((2 : Ts), (2 : Int))]⟩ : LeafExtent).prev = true ∧
    check_extent (appendList 1 2 (pairs 3)).store (1 + 0)
      (((appendList 1 2 (pairs 3)).nodes.getD 0 ⟨none, []⟩).prev) = true ∧
    check_extent (reopen (close 2 (appendList 1 2 (pairs 3))).1
        (close 2 (appendList 1 2 (pairs 3))).2).store 0
      (((reopen (close 2 (appendList 1 2 (pairs 3))).1
        (close 2 (appendList 1 2 (pairs 3))).2).leafE.getD ⟨none, []⟩).prev)
      = true ∧
    check_extent (reopen (close 2 (appendList 1 2 (pairs 3))).1
        (close 2 (appendList 1 2 (pairs 3))).2).store (1 + 0)
      (((reopen (close 2 (appendList 1 2 (pairs 3))).1
        (close 2 (appendList 1 2 (pairs 3))).2).nodes.getD 0 ⟨none, []⟩).prev)
      = true ∧
    check_extent (reopen (appendList 1 2 (pairs 3)).store
        (get_roots (appendList 1 2 (pairs 3)))).store 0
      (((reopen (appendList 1 2 (pairs 3)).store
        (get_roots (appendList 1 2 (pairs 3)))).leafE.getD ⟨none, []⟩).prev)
      = true ∧
    check_extent (reopen (appendList 1 2 (pairs 3)).store
        (get_roots (appendList 1 2 (pairs 3)))).store (1 + 0)
      (((reopen (appendList 1 2 (pairs 3)).store
        (get_roots (appendList 1 2 (pairs 3)))).nodes.getD 0 ⟨none, []⟩).prev)
      = true :=
  claim_C8 1 2 (by decide) (by decide) (pairs 3) (by decide)
    ⟨some 1, [((2 : Ts), (2 : Int))]⟩ (by decide) 0 (by decide) 0 (by decide)
    0 (by decide)

/-- C9 (corrected): if appends occurred but nothing was ever committed (the
run fits in one leaf buffer), `get_roots()` returns `[EMPTY_ADDR]` — one
entry for the already materialised leaf level, not the empty vector — and
reopening from that snapshot yields an empty scan: all buffered data is
lost. -/
theorem claim_C9 (cap K N : Nat) (hN1 : 1 ≤ N) (hN : N ≤ cap) :
    get_roots (appendRun cap K N) = [none] ∧
    collect (reopen (appendRun cap K N).store
      (get_roots (appendRun cap K N))) = [] := by
  rw [appendRun_small cap K N hN1 hN]
  exact ⟨rfl, rfl⟩

theorem claim_C9_witness :
    get_roots (appendRun 3 2 2) = [none] ∧
    collect (reopen (appendRun 3 2 2).store (get_roots (appendRun 3 2 2))) = [] :=
  claim_C9 3 2 2 (by decide) (by decide)

/-- C9 counterexample: after one append with no commit the roots vector is
`[EMPTY_ADDR]`, not the empty vector the claim asserts. -/
theorem claim_C9_counterexample :
    ¬ (get_roots (appendRun 2 2 1) = []) := by
  decide

/-- C10: `search(x, x)` with equal bounds is well-defined on every series
state — it returns the empty (backward) iterator rather than failing — and a
zero-capacity read on it returns status `OK` with `n = 0`. -/
theorem claim_C10 (xl : ExtentsList) (x : Ts) :
    search xl x x = [] ∧ read (search xl x x) 0 = ⟨St.OK, 0, [], []⟩ := by
  have h1 : search xl x x = [] := by
    rw [search, if_neg (Nat.lt_irrefl x)]
    have hf : (collect xl).filter
        (fun p => decide (x < p.1) && decide (p.1 ≤ x)) = [] := by
      refine List.filter_eq_nil_iff.mpr fun p hp => ?_
      simp only [Bool.and_eq_true, decide_eq_true_eq, not_and]
      intro hlt
      exact not_le.mpr hlt
    rw [hf]
    rfl
  refine ⟨h1, ?_⟩
  rw [h1]
  rfl

end NBT
